import Mathlib

/-!
Verification of the task-orchestration core of the `orquestrador` repository.

The development shallowly embeds the Python sources:
  * `src/task.py`     — `TaskStatus`, `Task` (runtime state, `execute`, `reset`);
  * `src/utils.py`    — `validate_dependencies`, `topological_sort` (Kahn);
  * `src/orquestrador.py` — `Orquestrador` (registration, planning, the
    sequential and bounded-parallel schedulers, retry loop, reset).

Modelling conventions:
  * a Python `dict` keyed by task name is an insertion-ordered association
    list (`List Task`, `List (String × Nat)`); key uniqueness is carried as a
    `Nodup` hypothesis where a theorem needs it;
  * the opaque Python callable of a task is modelled as
    `work : Nat → Except Nat Nat` applied to the number of previous
    invocations of that callable (the callable may be stateful, e.g. fail on
    its first two invocations); the invocation count lives in the ghost
    field `calls`, which `Task.reset` does not touch — resetting a task does
    not reset the closure state of its function;
  * `datetime.now()` timestamps are drawn from a logical clock threaded
    through execution;
  * raised exceptions become `Except` / `OrchError` values;
  * the bounded-parallel scheduler of `_run_parallel` is embedded by its
    coordinator logic: rounds of ready sets, every task of a round executed
    (submitted futures all run to completion even when one of them fails),
    the first failure of a round propagating afterwards.  This linearises
    the thread pool; it is the scheduler’s own dispatch order;
  * the field `startLog` of the orchestrator is ghost instrumentation: at
    the moment a task execution starts it records whether every dependency
    of the task currently has status `completed`.  No behaviour reads it.
-/

set_option maxHeartbeats 1000000

namespace Orq

/-- Status of a task, from `TaskStatus` in `src/task.py`. -/
inductive TaskStatus where
  | pending
  | running
  | completed
  | failed
  | skipped
deriving DecidableEq, Repr

/-- A task, from `Task` in `src/task.py`: static definition plus mutable
runtime state.  `work` models the bound callable (argument: number of prior
invocations of the callable); `calls` is the callable’s invocation counter. -/
structure Task where
  name : String
  work : Nat → Except Nat Nat
  dependencies : List String
  retry_count : Nat
  status : TaskStatus
  start_time : Option Nat
  end_time : Option Nat
  result : Option Nat
  error : Option Nat
  attempts : Nat
  calls : Nat

/-- Task construction as in `Task.__init__`: created `PENDING`, no
timestamps, no result, no error, zero attempts. -/
def mkTask (name : String) (work : Nat → Except Nat Nat)
    (dependencies : List String) (retry_count : Nat) : Task :=
  { name := name, work := work, dependencies := dependencies,
    retry_count := retry_count, status := .pending, start_time := none,
    end_time := none, result := none, error := none, attempts := 0,
    calls := 0 }

/-- Dictionary lookup `self.tasks[name]` / `name in self.tasks`. -/
def lookupTask (tasks : List Task) (n : String) : Option Task :=
  tasks.find? (fun t => t.name == n)

/-- The key list of the task dictionary. -/
def taskNames (tasks : List Task) : List String :=
  tasks.map Task.name

/-- Errors of the orchestration core.  The Python code raises `ValueError` /
`RuntimeError` / arbitrary exceptions; the spec’s taxonomy names them. -/
inductive OrchError where
  | duplicateTask (name : String)
  | taskNotFound (name : String)
  | dependentsExist (name : String) (dependents : List String)
  | validationErrors (errors : List (String × String))
  | cyclicDependency
  | keyError
  | alreadyRunning
  | cannotResetWhileRunning
  | taskFailed (name : String) (e : Nat)
deriving DecidableEq, Repr

/-- From `validate_dependencies` in `src/utils.py`: one entry per dependency
referencing an unregistered name, in task order.  The source formats each
entry into a message string; the model keeps the pair
(task name, missing dependency). -/
def validate_dependencies (tasks : List Task) : List (String × String) :=
  tasks.flatMap (fun t =>
    (t.dependencies.filter (fun d => !((taskNames tasks).contains d))).map
      (fun d => (t.name, d)))

/-- Adjacency of the graph built by `topological_sort`:
`graph[dep].append(task_name)` for every task and every dependency
occurrence, so `graphAdj tasks c` lists (in registration order, with
multiplicity) the names of tasks having `c` among their dependencies. -/
def graphAdj (tasks : List Task) (c : String) : List String :=
  tasks.flatMap (fun t =>
    ((t.dependencies.filter (fun d => d == c)).map (fun _ => t.name)))

/-- Pointwise update of the in-degree table. -/
def setF (f : String → Int) (a : String) (v : Int) : String → Int :=
  fun x => if x = a then v else f x

/-- The initial in-degree table: `in_degree[task] = number of dependency
occurrences of the task` (the source increments once per listed dependency,
duplicates included). -/
def initIndeg (tasks : List Task) : String → Int :=
  fun n =>
    match lookupTask tasks n with
    | some t => (t.dependencies.length : Int)
    | none => 0

/-- One neighbour visit of Kahn’s algorithm: decrement the neighbour’s
in-degree and enqueue it exactly when the new value is zero.  In-degrees are
`Int` as in Python, where a value can in principle go negative and then
never compares equal to zero again. -/
def decStep (p : (String → Int) × List String) (m : String) :
    (String → Int) × List String :=
  let v := p.1 m - 1
  (setF p.1 m v, if v = 0 then p.2 ++ [m] else p.2)

/-- The `while queue:` loop of `topological_sort`.  Each iteration pops the
queue head, appends it to the result and visits its neighbours.  The fuel
argument only guards structural termination; `tasks.length + 1` units are
provably never exhausted when task names are unique. -/
def kahnLoop (adj : String → List String) :
    Nat → (String → Int) → List String → List String → List String
  | 0, _, _, result => result
  | fuel + 1, indeg, queue, result =>
    match queue with
    | [] => result
    | current :: rest =>
      let p := (adj current).foldl decStep (indeg, rest)
      kahnLoop adj fuel p.1 p.2 (result ++ [current])

/-- From `topological_sort` in `src/utils.py` (Kahn’s algorithm).  The
upfront registration check models the `KeyError` the source raises from
`graph[dep]` when a dependency is unregistered (extensionally equivalent:
the source raises while building the graph, before producing any result).
If the loop result misses any task, a cycle exists (`ValueError`
“Dependências circulares detectadas”). -/
def topological_sort (tasks : List Task) : Except OrchError (List String) :=
  if tasks.all (fun t => t.dependencies.all (fun d => (lookupTask tasks d).isSome)) then
    let queue0 := (tasks.filter (fun t => t.dependencies.length == 0)).map Task.name
    let result := kahnLoop (graphAdj tasks) (tasks.length + 1) (initIndeg tasks) queue0 []
    if result.length = tasks.length then .ok result else .error .cyclicDependency
  else .error .keyError

/-- From `Task.reset` in `src/task.py`: back to `PENDING`, clear timestamps,
result, error, attempts.  The closure state of the callable (`calls`) is of
course not reset. -/
def taskReset (t : Task) : Task :=
  { t with status := .pending, start_time := none, end_time := none,
           result := none, error := none, attempts := 0 }

/-- The dependency relation of a task set: `depRel tasks a b` holds when a
registered task named `a` lists `b` among its dependencies. -/
def depRel (tasks : List Task) (a b : String) : Prop :=
  ∃ t ∈ tasks, t.name = a ∧ b ∈ t.dependencies

/-- Acyclicity of the dependency relation: no name depends transitively on
itself. -/
def Acyclic (tasks : List Task) : Prop :=
  ∀ a, ¬ Relation.TransGen (depRel tasks) a a

/-- The orchestrator, from `Orquestrador.__init__`.  `clock` is the logical
time source; `startLog` is ghost instrumentation (see the module comment). -/
structure Orquestrador where
  max_workers : Nat
  tasks : List Task
  execution_order : List String
  is_running : Bool
  start_time : Option Nat
  end_time : Option Nat
  results : List (String × Nat)
  clock : Nat
  startLog : List (String × Bool)

/-- A freshly constructed orchestrator. -/
def mkOrquestrador (max_workers : Nat) : Orquestrador :=
  { max_workers := max_workers, tasks := [], execution_order := [],
    is_running := false, start_time := none, end_time := none,
    results := [], clock := 0, startLog := [] }

/-- From `Orquestrador.add_task`: reject a duplicate name, otherwise append
the freshly constructed task to the registry. -/
def add_task (o : Orquestrador) (name : String) (work : Nat → Except Nat Nat)
    (dependencies : List String) (retry_count : Nat) :
    Orquestrador × Except OrchError Unit :=
  if (lookupTask o.tasks name).isSome then
    (o, .error (.duplicateTask name))
  else
    ({ o with tasks := o.tasks ++ [mkTask name work dependencies retry_count] }, .ok ())

/-- From `Orquestrador.remove_task`: absent name fails; then every
registered task (the named one included) is scanned for the name among its
dependencies and a non-empty dependent list fails; otherwise delete. -/
def remove_task (o : Orquestrador) (name : String) :
    Orquestrador × Except OrchError Unit :=
  if (lookupTask o.tasks name).isSome then
    let dependents := (o.tasks.filter (fun t => t.dependencies.contains name)).map Task.name
    if dependents.isEmpty then
      ({ o with tasks := o.tasks.filter (fun t => !(t.name == name)) }, .ok ())
    else
      (o, .error (.dependentsExist name dependents))
  else
    (o, .error (.taskNotFound name))

/-- From `Orquestrador.validate`. -/
def validate (o : Orquestrador) : List (String × String) :=
  validate_dependencies o.tasks

/-- From `Orquestrador.plan_execution`: surface validation errors, else run
the topological sort and store the order. -/
def plan_execution (o : Orquestrador) :
    Orquestrador × Except OrchError (List String) :=
  if validate o = [] then
    match topological_sort o.tasks with
    | .ok order => ({ o with execution_order := order }, .ok order)
    | .error e => (o, .error e)
  else
    (o, .error (.validationErrors (validate o)))

/-- Replace the task of the given name (the source mutates the task object
held in the dictionary in place). -/
def updateTask (tasks : List Task) (n : String) (t' : Task) : List Task :=
  tasks.map (fun t => if t.name == n then t' else t)

/-- Observation, for the ghost start log: does every dependency of the task
currently have status `completed`? -/
def depsCompleted (o : Orquestrador) (t : Task) : Bool :=
  t.dependencies.all (fun d =>
    match lookupTask o.tasks d with
    | some td => td.status == .completed
    | none => false)

/-- The retry loop of `Orquestrador._execute_task` acting on one task.  The
first argument is `max_attempts - attempts` for the local loop variable
`attempts`; a call with `t.retry_count + 1` models one full
`_execute_task`.  On a failed non-final attempt the task is reset
(`task.reset()`) and retried after the fixed delay; the final failure
propagates the caught error.  Returns the task, the advanced clock and the
outcome. -/
def executeAttempts : Nat → Task → Nat → Task × Nat × Except Nat Nat
  | 0, t, clock => (t, clock, .error 0)
  | n + 1, t, clock =>
    let t1 : Task :=
      { t with status := .running, start_time := some clock,
               attempts := t.attempts + 1, calls := t.calls + 1 }
    match t.work t.calls with
    | .ok v =>
      ({ t1 with result := some v, status := .completed,
                 end_time := some (clock + 1) }, clock + 2, .ok v)
    | .error e =>
      let t2 : Task :=
        { t1 with error := some e, status := .failed,
                  end_time := some (clock + 1) }
      match n with
      | 0 => (t2, clock + 2, .error e)
      | m + 1 => executeAttempts (m + 1) (taskReset t2) (clock + 2)

/-- `Orquestrador._execute_task` at orchestrator level: run the retry loop
on the named task, store the mutated task back, record the result on
success, and surface the terminal failure as `TaskFailed`.  The `keyError`
branch models `self.tasks[name]` on an unknown name (unreachable from
`run`, whose order comes from `plan_execution`).  The ghost start log gets
one entry per task start. -/
def execute_task (o : Orquestrador) (n : String) :
    Orquestrador × Except OrchError Nat :=
  match lookupTask o.tasks n with
  | none => (o, .error .keyError)
  | some t =>
    let o1 : Orquestrador :=
      { o with startLog := o.startLog ++ [(n, depsCompleted o t)] }
    let r := executeAttempts (t.retry_count + 1) t o1.clock
    let o2 : Orquestrador :=
      { o1 with tasks := updateTask o1.tasks n r.1, clock := r.2.1 }
    match r.2.2 with
    | .ok v => ({ o2 with results := o2.results ++ [(n, v)] }, .ok v)
    | .error e => (o2, .error (.taskFailed n e))

/-- From `Orquestrador._run_sequential`: execute the planned order one task
at a time; the first terminal failure aborts the traversal. -/
def run_sequential (o : Orquestrador) :
    List String → Orquestrador × Except OrchError Unit
  | [] => (o, .ok ())
  | n :: rest =>
    match execute_task o n with
    | (o', .ok _) => run_sequential o' rest
    | (o', .error e) => (o', .error e)

/-- One round of ready tasks in `_run_parallel`: every submitted future runs
to completion (the pool is shut down with `wait=True` and nothing cancels),
and the failure observed first by `as_completed` propagates afterwards. -/
def run_batch (o : Orquestrador) :
    List String → Orquestrador × Except OrchError Unit
  | [] => (o, .ok ())
  | n :: rest =>
    match execute_task o n with
    | (o', .ok _) => run_batch o' rest
    | (o', .error e) =>
      let r := run_batch o' rest
      (r.1, .error e)

/-- The coordinator loop of `Orquestrador._run_parallel`: while tasks remain
uncompleted, compute the ready set from the planned order, break with a
normal return when it is empty, otherwise execute the round and mark its
members completed.  The fuel argument (`tasks.length + 1` at the top call)
only guards structural termination. -/
def run_parallel_loop (fuel : Nat) (o : Orquestrador) (completed : List String) :
    Orquestrador × Except OrchError Unit :=
  match fuel with
  | 0 => (o, .ok ())
  | fuel + 1 =>
    if completed.length < o.tasks.length then
      let ready := o.execution_order.filter (fun n =>
        !(completed.contains n) &&
          (match lookupTask o.tasks n with
           | some t => t.dependencies.all (fun d => completed.contains d)
           | none => false))
      if ready.isEmpty then (o, .ok ())
      else
        match run_batch o ready with
        | (o', .ok _) => run_parallel_loop fuel o' (completed ++ ready)
        | (o', .error e) => (o', .error e)
    else
      (o, .ok ())

/-- From `Orquestrador._run_parallel`. -/
def run_parallel (o : Orquestrador) : Orquestrador × Except OrchError Unit :=
  run_parallel_loop (o.tasks.length + 1) o []

/-- From `Orquestrador.run`: reject reentrance, mark running, clear the
results of any previous run, plan, dispatch to the requested mode, and in
every exit path (the `finally`) drop the running flag.  The mutated
orchestrator state survives a failing run, exactly as the Python object
does when `run` raises. -/
def run (o : Orquestrador) (parallel : Bool) :
    Orquestrador × Except OrchError (List (String × Nat)) :=
  if o.is_running then (o, .error .alreadyRunning)
  else
    let o1 : Orquestrador :=
      { o with is_running := true, start_time := some o.clock,
               clock := o.clock + 1, results := [] }
    match plan_execution o1 with
    | (o2, .error e) => ({ o2 with is_running := false }, .error e)
    | (o2, .ok _) =>
      let r := if parallel then run_parallel o2 else run_sequential o2 o2.execution_order
      match r.2 with
      | .ok _ =>
        let o3 : Orquestrador :=
          { r.1 with end_time := some r.1.clock, clock := r.1.clock + 1,
                     is_running := false }
        (o3, .ok o3.results)
      | .error e => ({ r.1 with is_running := false }, .error e)

/-- From `Orquestrador.reset`: refused while running; otherwise reset every
task and clear results, timestamps and the planned order. -/
def orchReset (o : Orquestrador) : Orquestrador × Except OrchError Unit :=
  if o.is_running then (o, .error .cannotResetWhileRunning)
  else
    ({ o with tasks := o.tasks.map taskReset, results := [],
              start_time := none, end_time := none, execution_order := [] },
     .ok ())

/-- Status of the named task, as `get_status` reports it. -/
def statusOf (o : Orquestrador) (n : String) : Option TaskStatus :=
  (lookupTask o.tasks n).map Task.status

/-- Attempt counter of the named task, as `get_status` reports it. -/
def attemptsOf (o : Orquestrador) (n : String) : Option Nat :=
  (lookupTask o.tasks n).map Task.attempts

/-- Dependency list of the named task (empty for an unregistered name). -/
def depsOf (tasks : List Task) (n : String) : List String :=
  match lookupTask tasks n with
  | some t => t.dependencies
  | none => []

/-- Number of elements of `l` (with multiplicity) not lying in `r`: the
semantic value of an in-degree entry of Kahn’s algorithm after the members
of `r` have been processed. -/
def countNotIn (l r : List String) : Nat :=
  l.countP (fun d => !(r.contains d))

/-- The invariant of the Kahn loop: the processed part `result` and the
`queue` are disjoint registered names; the in-degree table counts the
dependencies not yet processed; queue members have all dependencies
processed; a task with all dependencies processed is in `result` or
`queue`; and each `result` member’s dependencies precede it. -/
def KInv (tasks : List Task) (indeg : String → Int)
    (queue result : List String) : Prop :=
  (result ++ queue).Nodup ∧
  (∀ x ∈ result ++ queue, x ∈ taskNames tasks) ∧
  (∀ n, indeg n = (countNotIn (depsOf tasks n) result : Int)) ∧
  (∀ n ∈ queue, ∀ d ∈ depsOf tasks n, d ∈ result) ∧
  (∀ n ∈ taskNames tasks,
    (∀ d ∈ depsOf tasks n, d ∈ result) → n ∈ result ∨ n ∈ queue) ∧
  (∀ r1 t r2, result = r1 ++ t :: r2 → ∀ d ∈ depsOf tasks t, d ∈ r1)

/-- Properties of the finished Kahn loop output: registered names without
duplicates, each preceded by its dependencies, and containing every task
whose dependencies it contains. -/
def KFinal (tasks : List Task) (out : List String) : Prop :=
  out.Nodup ∧
  (∀ x ∈ out, x ∈ taskNames tasks) ∧
  (∀ r1 t r2, out = r1 ++ t :: r2 → ∀ d ∈ depsOf tasks t, d ∈ r1) ∧
  (∀ n ∈ taskNames tasks, (∀ d ∈ depsOf tasks n, d ∈ out) → n ∈ out)

/-- A work item that always succeeds with the given value. -/
def wOk (v : Nat) : Nat → Except Nat Nat :=
  fun _ => .ok v

/-- A work item that fails (error 7) on its first `k` invocations and then
succeeds with the given value — the classic transient-failure shape. -/
def wFlaky (k v : Nat) : Nat → Except Nat Nat :=
  fun c => if c < k then .error 7 else .ok v

/-- A work item that always fails with the given error. -/
def wBad (e : Nat) : Nat → Except Nat Nat :=
  fun _ => .error e

/-- The diamond scenario of the spec: A with no dependencies, B and C
depending on A, D depending on B and C. -/
def oDiamond : Orquestrador :=
  { mkOrquestrador 4 with tasks :=
      [mkTask "A" (wOk 1) [] 0,
       mkTask "B" (wOk 2) ["A"] 0,
       mkTask "C" (wOk 3) ["A"] 0,
       mkTask "D" (wOk 4) ["B", "C"] 0] }

/-- A two-cycle: A depends on B, B depends on A. -/
def oCycAB : Orquestrador :=
  { mkOrquestrador 4 with tasks :=
      [mkTask "A" (wOk 1) ["B"] 0, mkTask "B" (wOk 2) ["A"] 0] }

/-- A single task with `retry_count = 2` whose work fails on its first two
invocations and succeeds (value 42) on the third. -/
def oRetry2 : Orquestrador :=
  { mkOrquestrador 4 with tasks := [mkTask "X" (wFlaky 2 42) [] 2] }

/-- A chain whose middle task exhausts `retry_count = 1` and fails
terminally, leaving the downstream task untouched. -/
def oFailMid : Orquestrador :=
  { mkOrquestrador 4 with tasks :=
      [mkTask "A" (wOk 1) [] 0,
       mkTask "X" (wBad 9) ["A"] 1,
       mkTask "Z" (wOk 5) ["X"] 0] }

/-- A failing leaf X (`retry_count = 1`, every attempt fails) with a
dependent Z: the minimal sequential fail-fast scenario. -/
def oFailPair : Orquestrador :=
  { mkOrquestrador 4 with tasks :=
      [mkTask "X" (wBad 9) [] 1,
       mkTask "Z" (wOk 5) ["X"] 0] }

/-- A task depending on itself, as `add_task` happily registers it. -/
def oSelf : Orquestrador :=
  (add_task (mkOrquestrador 4) "S" (wOk 1) ["S"] 0).1

/-- A height function on the diamond, witnessing its acyclicity. -/
def diamondHeight (n : String) : Nat :=
  if n = "A" then 0 else if n = "B" then 1 else if n = "C" then 1 else 2

/-- The value the named task’s next work invocation would produce (`none`
for an unregistered name or a failing invocation): the expected `results`
entry of a failure-free run. -/
def valOf (tasks : List Task) (n : String) : Option Nat :=
  match lookupTask tasks n with
  | some t => (t.work t.calls).toOption
  | none => none

/-- Keys of the results mapping. -/
def resultKeys (o : Orquestrador) : List String :=
  o.results.map Prod.fst

/-- The state `run` puts the orchestrator into before planning: running,
stamped start time, cleared results (lines 177–179 of the source). -/
def runStart (o : Orquestrador) : Orquestrador :=
  { o with is_running := true, start_time := some o.clock,
           clock := o.clock + 1, results := [] }

/-- An orchestrator state after a completed run, used to exercise
`reset`. -/
def oRunDone : Orquestrador :=
  (run oRetry2 false).1

/-- An orchestrator that claims to be mid-run. -/
def oRunning : Orquestrador :=
  { oDiamond with is_running := true }

end Orq

namespace Orq

section BasicLemmas

lemma mem_taskNames {tasks : List Task} {n : String} :
    n ∈ taskNames tasks ↔ ∃ t ∈ tasks, t.name = n := by
  simp [taskNames]

lemma lookupTask_isSome_iff {tasks : List Task} {n : String} :
    (lookupTask tasks n).isSome ↔ n ∈ taskNames tasks := by
  rw [lookupTask, List.find?_isSome, mem_taskNames]
  constructor
  · rintro ⟨t, ht, hb⟩
    exact ⟨t, ht, by simpa using hb⟩
  · rintro ⟨t, ht, hb⟩
    exact ⟨t, ht, by simpa using hb⟩

lemma lookupTask_eq_some_mem {tasks : List Task} {n : String} {t : Task}
    (h : lookupTask tasks n = some t) : t ∈ tasks ∧ t.name = n := by
  refine ⟨List.mem_of_find?_eq_some h, ?_⟩
  have := List.find?_some h
  simpa using this

lemma lookupTask_of_mem {tasks : List Task}
    (hnd : (taskNames tasks).Nodup) {t : Task} (ht : t ∈ tasks) :
    lookupTask tasks t.name = some t := by
  induction tasks with
  | nil => cases ht
  | cons t0 rest ih =>
    simp only [taskNames, List.map_cons, List.nodup_cons] at hnd
    rcases List.mem_cons.mp ht with h0 | hrest
    · subst h0
      simp [lookupTask, List.find?]
    · have hne : t0.name ≠ t.name := by
        intro he
        exact hnd.1 (he ▸ (List.mem_map.mpr ⟨t, hrest, rfl⟩))
      have := ih hnd.2 hrest
      simp only [lookupTask, List.find?] at this ⊢
      rw [show (t0.name == t.name) = false from by simpa using hne]
      exact this

lemma depsOf_of_mem {tasks : List Task}
    (hnd : (taskNames tasks).Nodup) {t : Task} (ht : t ∈ tasks) :
    depsOf tasks t.name = t.dependencies := by
  rw [depsOf, lookupTask_of_mem hnd ht]

lemma depsOf_not_mem {tasks : List Task} {n : String}
    (h : n ∉ taskNames tasks) : depsOf tasks n = [] := by
  rw [depsOf]
  cases hfind : lookupTask tasks n with
  | none => rfl
  | some t =>
    exact absurd (mem_taskNames.mpr ⟨t, (lookupTask_eq_some_mem hfind).1,
      (lookupTask_eq_some_mem hfind).2⟩) h

lemma nodup_subset_length_le {l1 l2 : List String}
    (hn : l1.Nodup) (hsub : l1 ⊆ l2) : l1.length ≤ l2.length := by
  classical
  calc l1.length = l1.toFinset.card := (List.toFinset_card_of_nodup hn).symm
    _ ≤ l2.toFinset.card := Finset.card_le_card (fun x hx => by
        simp only [List.mem_toFinset] at hx ⊢
        exact hsub hx)
    _ ≤ l2.length := l2.toFinset_card_le

lemma nodup_subset_length_eq_mem {l1 l2 : List String}
    (hn1 : l1.Nodup) (hsub : l1 ⊆ l2)
    (hlen : l2.length ≤ l1.length) : ∀ x ∈ l2, x ∈ l1 := by
  classical
  intro x hx
  have h1 : l1.toFinset ⊆ l2.toFinset := fun y hy => by
    simp only [List.mem_toFinset] at hy ⊢
    exact hsub hy
  have hc1 : l1.toFinset.card = l1.length := List.toFinset_card_of_nodup hn1
  have hc2 : l2.toFinset.card ≤ l2.length := l2.toFinset_card_le
  have hsub2 : l2.toFinset ⊆ l1.toFinset := by
    apply Finset.subset_iff.mp
    have := Finset.eq_of_subset_of_card_le h1 (by omega)
    rw [this]
  rw [← List.mem_toFinset] at hx ⊢
  exact hsub2 hx

end BasicLemmas

section CountLemmas

lemma countNotIn_nil (l : List String) : countNotIn l [] = l.length := by
  simp [countNotIn]

lemma countP_split (p q r0 : String → Bool)
    (h : ∀ d, r0 d = (p d || q d))
    (hdisj : ∀ d, ¬(p d = true ∧ q d = true)) (l : List String) :
    l.countP p + l.countP q = l.countP r0 := by
  induction l with
  | nil => simp
  | cons a tl ih =>
    have hd := hdisj a
    simp only [List.countP_cons, h a]
    cases hp : p a <;> cases hq : q a <;> simp [hp, hq] at hd ⊢ <;> omega

lemma countNotIn_append_single {l r : List String} {c : String} (hc : c ∉ r) :
    countNotIn l (r ++ [c]) + l.count c = countNotIn l r := by
  have hcount : l.count c = l.countP (fun d => d == c) := rfl
  rw [countNotIn, countNotIn, hcount]
  apply countP_split
  · intro d
    by_cases hdc : d = c
    · subst hdc
      simp [List.elem_eq_mem, hc]
    · by_cases hdr : d ∈ r <;>
        simp [List.elem_eq_mem, hdc, hdr]
  · intro d hd
    rcases hd with ⟨h1, h2⟩
    have : d = c := by simpa using h2
    subst this
    simp [List.elem_eq_mem] at h1

lemma count_le_countNotIn {l r : List String} {c : String} (hc : c ∉ r) :
    l.count c ≤ countNotIn l r := by
  have := @countNotIn_append_single l r c hc
  omega

lemma countNotIn_eq_zero {l r : List String} (h : countNotIn l r = 0) :
    ∀ d ∈ l, d ∈ r := by
  intro d hd
  rw [countNotIn, List.countP_eq_zero] at h
  have := h d hd
  simpa using this

lemma countNotIn_eq_zero_of_subset {l r : List String}
    (h : ∀ d ∈ l, d ∈ r) : countNotIn l r = 0 := by
  rw [countNotIn, List.countP_eq_zero]
  intro a ha
  simpa using h a ha

lemma mem_graphAdj {tasks : List Task} {c m : String}
    (h : m ∈ graphAdj tasks c) : m ∈ taskNames tasks := by
  simp only [graphAdj, List.mem_flatMap, List.mem_map] at h
  obtain ⟨t, ht, _, _, hm⟩ := h
  exact mem_taskNames.mpr ⟨t, ht, hm⟩

lemma count_graphAdj {tasks : List Task}
    (hnd : (taskNames tasks).Nodup) (n c : String) :
    (graphAdj tasks c).count n = (depsOf tasks n).count c := by
  induction tasks with
  | nil => simp [graphAdj, depsOf, lookupTask]
  | cons t rest ih =>
    simp only [taskNames, List.map_cons, List.nodup_cons] at hnd
    have hblock : ((t.dependencies.filter (fun d => d == c)).map
        (fun _ => t.name)).count n
        = if n = t.name then t.dependencies.count c else 0 := by
      rw [List.map_const', List.count_replicate]
      have hlen : (t.dependencies.filter (fun d => d == c)).length
          = t.dependencies.count c := by
        simp [List.count, List.countP_eq_length_filter]
      by_cases hn : n = t.name
      · simp [hn, hlen]
      · simp only [if_neg hn]
        rw [if_neg]
        simpa using fun h => hn h.symm
    have hadj : graphAdj (t :: rest) c
        = (t.dependencies.filter (fun d => d == c)).map (fun _ => t.name)
          ++ graphAdj rest c := by
      simp [graphAdj]
    rw [hadj, List.count_append, hblock]
    by_cases hn : n = t.name
    · have hzero : (graphAdj rest c).count n = 0 := by
        apply List.count_eq_zero.mpr
        intro hmem
        apply hnd.1
        rw [← hn] at hnd ⊢
        simpa [taskNames] using mem_graphAdj hmem
      have hdeps : depsOf (t :: rest) n = t.dependencies := by
        simp [depsOf, lookupTask, List.find?, hn]
      rw [hzero, hdeps, if_pos hn]
      omega
    · have hdeps : depsOf (t :: rest) n = depsOf rest n := by
        simp only [depsOf, lookupTask, List.find?]
        rw [show (t.name == n) = false from by simpa using fun h => hn h.symm]
      rw [hdeps, if_neg hn, ih hnd.2]
      simp

end CountLemmas

section FoldLemmas

lemma decStep_eq (indeg : String → Int) (q : List String) (a : String) :
    decStep (indeg, q) a
      = (setF indeg a (indeg a - 1), if indeg a - 1 = 0 then q ++ [a] else q) :=
  rfl

lemma setF_same (f : String → Int) (a : String) (v : Int) : setF f a v a = v := by
  simp [setF]

lemma setF_other (f : String → Int) (a : String) (v : Int) {x : String}
    (h : x ≠ a) : setF f a v x = f x := by
  simp [setF, h]

lemma foldDec_fst (ns : List String) :
    ∀ (indeg : String → Int) (q : List String) (m : String),
      ((ns.foldl decStep (indeg, q)).1) m = indeg m - ns.count m := by
  induction ns with
  | nil =>
    intro indeg q m
    simp
  | cons a tl ih =>
    intro indeg q m
    rw [List.foldl_cons, decStep_eq, ih]
    by_cases hma : m = a
    · subst hma
      rw [setF_same, List.count_cons]
      simp
      push_cast
      omega
    · rw [setF_other _ _ _ hma, List.count_cons]
      rw [show (a == m) = false from by simpa using fun h => hma h.symm]
      simp

lemma foldDec_snd_mem (ns : List String) :
    ∀ (indeg : String → Int) (q : List String) (m : String),
      (m ∈ (ns.foldl decStep (indeg, q)).2 ↔
        m ∈ q ∨ (1 ≤ indeg m ∧ indeg m ≤ (ns.count m : Int))) := by
  induction ns with
  | nil =>
    intro indeg q m
    simp only [List.foldl_nil, List.count_nil, Nat.cast_zero]
    constructor
    · exact fun h => Or.inl h
    · rintro (h | ⟨h1, h2⟩)
      · exact h
      · omega
  | cons a tl ih =>
    intro indeg q m
    rw [List.foldl_cons, decStep_eq, ih]
    have hcnt : ((a :: tl).count m : Int)
        = (tl.count m : Int) + (if m = a then 1 else 0) := by
      rw [List.count_cons]
      by_cases hma : m = a <;> simp [hma, Ne.symm] <;> push_cast <;> omega
    by_cases hma : m = a
    · subst hma
      rw [setF_same, hcnt, if_pos rfl]
      by_cases hz : indeg m - 1 = 0
      · rw [if_pos hz]
        simp only [List.mem_append, List.mem_singleton]
        constructor
        · intro _
          right
          constructor
          · omega
          · have : (0 : Int) ≤ (tl.count m : Int) := Int.ofNat_nonneg _
            omega
        · intro _
          left
          right
          trivial
      · rw [if_neg hz]
        constructor
        · rintro (h | ⟨h1, h2⟩)
          · exact Or.inl h
          · right
            constructor <;> omega
        · rintro (h | ⟨h1, h2⟩)
          · exact Or.inl h
          · right
            constructor <;> omega
    · rw [setF_other _ _ _ hma, hcnt, if_neg hma]
      by_cases hz : indeg a - 1 = 0
      · rw [if_pos hz]
        simp only [List.mem_append, List.mem_singleton]
        constructor
        · rintro ((h | h) | h)
          · exact Or.inl h
          · exact absurd h hma
          · right
            omega
        · rintro (h | h)
          · exact Or.inl (Or.inl h)
          · right
            omega
      · rw [if_neg hz]
        constructor
        · rintro (h | h)
          · exact Or.inl h
          · right
            omega
        · rintro (h | h)
          · exact Or.inl h
          · right
            omega

lemma foldDec_snd_sub (ns : List String) (indeg : String → Int)
    (q : List String) {m : String}
    (h : m ∈ (ns.foldl decStep (indeg, q)).2) : m ∈ q ∨ m ∈ ns := by
  rcases (foldDec_snd_mem ns indeg q m).mp h with hq | ⟨h1, h2⟩
  · exact Or.inl hq
  · right
    have : 0 < ns.count m := by
      rcases Nat.eq_zero_or_pos (ns.count m) with h0 | h0
      · rw [h0] at h2
        simp at h2
        omega
      · exact h0
    exact List.count_pos_iff.mp this

lemma foldDec_snd_nodup (ns : List String) :
    ∀ (indeg : String → Int) (q : List String), q.Nodup →
      (∀ m, 1 ≤ indeg m → indeg m ≤ (ns.count m : Int) → m ∉ q) →
      (ns.foldl decStep (indeg, q)).2.Nodup := by
  induction ns with
  | nil =>
    intro indeg q hq _
    simpa using hq
  | cons a tl ih =>
    intro indeg q hq hcond
    rw [List.foldl_cons, decStep_eq]
    have hcnt : ∀ m, ((a :: tl).count m : Int)
        = (tl.count m : Int) + (if m = a then 1 else 0) := by
      intro m
      rw [List.count_cons]
      by_cases hma : m = a <;> simp [hma, Ne.symm] <;> push_cast <;> omega
    apply ih
    · by_cases hz : indeg a - 1 = 0
      · rw [if_pos hz, List.nodup_append]
        refine ⟨hq, List.nodup_singleton a, ?_⟩
        intro x hx hxa
        rw [List.mem_singleton] at hxa
        rw [hxa] at hx
        exact hcond a (by omega) (by rw [hcnt]; simp; omega) hx
      · rw [if_neg hz]
        exact hq
    · intro m h1 h2
      by_cases hma : m = a
      · subst hma
        rw [setF_same] at h1 h2
        have hz : ¬(indeg m - 1 = 0) := by omega
        rw [if_neg hz]
        apply hcond m (by omega)
        rw [hcnt]
        simp
        omega
      · rw [setF_other _ _ _ hma] at h1 h2
        have hnotq : m ∉ q := by
          apply hcond m h1
          rw [hcnt, if_neg hma]
          omega
        by_cases hz : indeg a - 1 = 0
        · rw [if_pos hz]
          rw [List.mem_append, List.mem_singleton]
          rintro (h | h)
          · exact hnotq h
          · exact hma h
        · rw [if_neg hz]
          exact hnotq

end FoldLemmas

section KahnInvariant

lemma append_single_inj {l m : List String} {x y : String}
    (h : l ++ [x] = m ++ [y]) : l = m ∧ x = y := by
  have h' := congrArg List.reverse h
  simp only [List.reverse_append, List.reverse_singleton,
    List.singleton_append, List.cons.injEq] at h'
  exact ⟨List.reverse_injective h'.2, h'.1⟩

lemma split_append_single {l : List String} {x t : String} {r1 r2 : List String}
    (h : l ++ [x] = r1 ++ t :: r2) :
    (∃ r2', l = r1 ++ t :: r2') ∨ (r1 = l ∧ t = x ∧ r2 = []) := by
  rcases r2.eq_nil_or_concat with hnil | ⟨r2', y, hy⟩
  · subst hnil
    obtain ⟨h1, h2⟩ := append_single_inj h
    exact Or.inr ⟨h1.symm, h2.symm, rfl⟩
  · subst hy
    rw [List.concat_eq_append] at h
    have h2 : l ++ [x] = (r1 ++ t :: r2') ++ [y] := by
      rw [h]
      simp
    obtain ⟨h1, _⟩ := append_single_inj h2
    exact Or.inl ⟨r2', h1⟩

lemma KInv_result_deps {tasks : List Task} {indeg : String → Int}
    {queue result : List String}
    (hinv : KInv tasks indeg queue result) :
    ∀ m ∈ result, ∀ d ∈ depsOf tasks m, d ∈ result := by
  intro m hm d hd
  obtain ⟨r1, r2, hsplit⟩ := List.append_of_mem hm
  have := hinv.2.2.2.2.2 r1 m r2 hsplit d hd
  rw [hsplit]
  exact List.mem_append_left _ this

lemma KInv_step {tasks : List Task}
    (hnd : (taskNames tasks).Nodup)
    {indeg : String → Int} {current : String} {rest result : List String}
    (hinv : KInv tasks indeg (current :: rest) result) :
    KInv tasks ((graphAdj tasks current).foldl decStep (indeg, rest)).1
      ((graphAdj tasks current).foldl decStep (indeg, rest)).2
      (result ++ [current]) := by
  obtain ⟨h1, h2, h3, h4, h5, h6⟩ := hinv
  have hcur_mem : current ∈ taskNames tasks :=
    h2 current (List.mem_append_right _ (List.mem_cons_self _ _))
  rw [List.nodup_append] at h1
  obtain ⟨hres_nd, hq_nd, hdisj⟩ := h1
  rw [List.nodup_cons] at hq_nd
  have hcur_notin_res : current ∉ result := fun h => hdisj h (List.mem_cons_self _ _)
  have hcnt : ∀ m, (graphAdj tasks current).count m
      = (depsOf tasks m).count current := fun m => count_graphAdj hnd m current
  have hcni : ∀ m, countNotIn (depsOf tasks m) (result ++ [current])
      + (depsOf tasks m).count current
      = countNotIn (depsOf tasks m) result := fun m =>
    countNotIn_append_single hcur_notin_res
  have hfst : ∀ m, ((graphAdj tasks current).foldl decStep (indeg, rest)).1 m
      = (countNotIn (depsOf tasks m) (result ++ [current]) : Int) := by
    intro m
    rw [foldDec_fst, h3 m, hcnt m]
    have := hcni m
    omega
  have hqmem : ∀ m, m ∈ ((graphAdj tasks current).foldl decStep (indeg, rest)).2
      ↔ m ∈ rest ∨ (countNotIn (depsOf tasks m) (result ++ [current]) = 0
          ∧ 0 < (depsOf tasks m).count current) := by
    intro m
    rw [foldDec_snd_mem]
    have hc := hcni m
    have h3m := h3 m
    have hcm := hcnt m
    constructor
    · rintro (h | ⟨ha, hb⟩)
      · exact Or.inl h
      · rw [h3m] at ha hb
        rw [hcm] at hb
        right
        constructor <;> omega
    · rintro (h | ⟨ha, hb⟩)
      · exact Or.inl h
      · right
        rw [h3m, hcm]
        constructor <;> omega
  have hq_sub_names : ∀ m ∈ ((graphAdj tasks current).foldl decStep (indeg, rest)).2,
      m ∈ taskNames tasks := by
    intro m hm
    rcases foldDec_snd_sub _ _ _ hm with h | h
    · exact h2 m (List.mem_append_right _ (List.mem_cons_of_mem _ h))
    · exact mem_graphAdj h
  have hq_not_res : ∀ m ∈ ((graphAdj tasks current).foldl decStep (indeg, rest)).2,
      m ∉ result ++ [current] := by
    intro m hm hmem
    rcases (hqmem m).mp hm with h | ⟨ha, hb⟩
    · rcases List.mem_append.mp hmem with h' | h'
      · exact hdisj h' (List.mem_cons_of_mem _ h)
      · rw [List.mem_singleton] at h'
        exact hq_nd.1 (h' ▸ h)
    · rcases List.mem_append.mp hmem with h' | h'
      · have hsub := KInv_result_deps ⟨List.nodup_append.mpr
          ⟨hres_nd, List.nodup_cons.mpr hq_nd, hdisj⟩, h2, h3, h4, h5, h6⟩ m h'
        have := countNotIn_eq_zero_of_subset hsub
        have hle := @count_le_countNotIn (depsOf tasks m) result current hcur_notin_res
        omega
      · rw [List.mem_singleton] at h'
        subst h'
        have hsub := h4 m (List.mem_cons_self _ _)
        have h0 := countNotIn_eq_zero_of_subset hsub
        have hle := @count_le_countNotIn (depsOf tasks m) result m hcur_notin_res
        omega
  refine ⟨?_, ?_, ?_, ?_, ?_, ?_⟩
  · rw [List.nodup_append]
    refine ⟨?_, ?_, ?_⟩
    · rw [List.nodup_append]
      refine ⟨hres_nd, List.nodup_singleton _, ?_⟩
      intro x hx hx'
      rw [List.mem_singleton] at hx'
      exact hcur_notin_res (hx' ▸ hx)
    · apply foldDec_snd_nodup _ _ _ hq_nd.2
      intro m hm1 hm2 hmem
      have h3m := h3 m
      have := countNotIn_eq_zero_of_subset (h4 m (List.mem_cons_of_mem _ hmem))
      omega
    · intro x hx hx'
      exact hq_not_res x hx' hx
  · intro x hx
    rcases List.mem_append.mp hx with h | h
    · rcases List.mem_append.mp h with h' | h'
      · exact h2 x (List.mem_append_left _ h')
      · rw [List.mem_singleton] at h'
        exact h' ▸ hcur_mem
    · exact hq_sub_names x h
  · exact hfst
  · intro n hn d hd
    rcases (hqmem n).mp hn with h | ⟨ha, hb⟩
    · exact List.mem_append_left _ (h4 n (List.mem_cons_of_mem _ h) d hd)
    · exact countNotIn_eq_zero ha d hd
  · intro n hn hdeps
    by_cases hall : ∀ d ∈ depsOf tasks n, d ∈ result
    · rcases h5 n hn hall with h | h
      · exact Or.inl (List.mem_append_left _ h)
      · rcases List.mem_cons.mp h with h' | h'
        · exact Or.inl (List.mem_append_right _ (h' ▸ List.mem_singleton_self _))
        · exact Or.inr ((hqmem n).mpr (Or.inl h'))
    · push_neg at hall
      obtain ⟨d0, hd0, hd0n⟩ := hall
      have hd0c : d0 = current := by
        rcases List.mem_append.mp (hdeps d0 hd0) with h | h
        · exact absurd h hd0n
        · exact List.mem_singleton.mp h
      right
      apply (hqmem n).mpr
      right
      constructor
      · exact countNotIn_eq_zero_of_subset hdeps
      · apply List.count_pos_iff.mpr
        exact hd0c ▸ hd0
  · intro r1 t r2 hsplit d hd
    rcases split_append_single hsplit with ⟨r2', hsp⟩ | ⟨hr1, ht, _⟩
    · exact h6 r1 t r2' hsp d hd
    · subst ht
      rw [hr1]
      exact h4 t (List.mem_cons_self _ _) d hd

lemma kahnLoop_spec {tasks : List Task}
    (hnd : (taskNames tasks).Nodup) :
    ∀ (fuel : Nat) (indeg : String → Int) (queue result : List String),
      KInv tasks indeg queue result →
      (taskNames tasks).length + 1 ≤ fuel + result.length →
      KFinal tasks (kahnLoop (graphAdj tasks) fuel indeg queue result) := by
  intro fuel
  induction fuel with
  | zero =>
    intro indeg queue result hinv hfuel
    exfalso
    have h1 : result.Nodup := (List.nodup_append.mp hinv.1).1
    have h2 : result ⊆ taskNames tasks := fun x hx =>
      hinv.2.1 x (List.mem_append_left _ hx)
    have := nodup_subset_length_le h1 h2
    omega
  | succ fuel ih =>
    intro indeg queue result hinv hfuel
    cases queue with
    | nil =>
      have hout : kahnLoop (graphAdj tasks) (fuel + 1) indeg [] result = result := rfl
      rw [hout]
      obtain ⟨h1, h2, _, _, h5, h6⟩ := hinv
      refine ⟨?_, ?_, h6, ?_⟩
      · simpa using h1
      · intro x hx
        exact h2 x (List.mem_append_left _ hx)
      · intro n hn hd
        rcases h5 n hn hd with h | h
        · exact h
        · cases h
    | cons current rest =>
      have hout : kahnLoop (graphAdj tasks) (fuel + 1) indeg (current :: rest) result
          = kahnLoop (graphAdj tasks) fuel
            ((graphAdj tasks current).foldl decStep (indeg, rest)).1
            ((graphAdj tasks current).foldl decStep (indeg, rest)).2
            (result ++ [current]) := rfl
      rw [hout]
      apply ih _ _ _ (KInv_step hnd hinv)
      rw [List.length_append]
      simp only [List.length_singleton]
      omega

end KahnInvariant

section TopoSort

lemma KInv_init {tasks : List Task} (hnd : (taskNames tasks).Nodup) :
    KInv tasks (initIndeg tasks)
      ((tasks.filter (fun t => t.dependencies.length == 0)).map Task.name) [] := by
  refine ⟨?_, ?_, ?_, ?_, ?_, ?_⟩
  · simp only [List.nil_append]
    exact ((List.filter_sublist tasks).map Task.name).nodup hnd
  · intro x hx
    simp only [List.nil_append] at hx
    obtain ⟨t, ht, hname⟩ := List.mem_map.mp hx
    exact mem_taskNames.mpr ⟨t, List.mem_of_mem_filter ht, hname⟩
  · intro n
    cases hlk : lookupTask tasks n with
    | none => simp [initIndeg, depsOf, hlk, countNotIn_nil]
    | some t => simp [initIndeg, depsOf, hlk, countNotIn_nil]
  · intro n hn d hd
    obtain ⟨t, ht, hname⟩ := List.mem_map.mp hn
    have hfil := List.of_mem_filter ht
    have hlen : t.dependencies.length = 0 := by simpa using hfil
    have hdeps : depsOf tasks n = t.dependencies := by
      rw [← hname, depsOf_of_mem hnd (List.mem_of_mem_filter ht)]
    rw [hdeps, List.length_eq_zero.mp hlen] at hd
    cases hd
  · intro n hn hdeps
    right
    obtain ⟨t, ht, hname⟩ := mem_taskNames.mp hn
    have hd : depsOf tasks n = t.dependencies := by
      rw [← hname, depsOf_of_mem hnd ht]
    have hempty : t.dependencies = [] := by
      rw [List.eq_nil_iff_forall_not_mem]
      intro d hdm
      have := hdeps d (by rw [hd]; exact hdm)
      cases this
    apply List.mem_map.mpr
    refine ⟨t, ?_, hname⟩
    apply List.mem_filter.mpr
    refine ⟨ht, ?_⟩
    simp [hempty]
  · intro r1 t r2 hsplit
    exact absurd (congrArg List.length hsplit) (by simp; omega)

lemma topological_sort_eq {tasks : List Task}
    (hreg : ∀ t ∈ tasks, ∀ d ∈ t.dependencies, d ∈ taskNames tasks) :
    topological_sort tasks =
      (if (kahnLoop (graphAdj tasks) (tasks.length + 1) (initIndeg tasks)
            ((tasks.filter (fun t => t.dependencies.length == 0)).map Task.name)
            []).length = tasks.length
       then .ok (kahnLoop (graphAdj tasks) (tasks.length + 1) (initIndeg tasks)
            ((tasks.filter (fun t => t.dependencies.length == 0)).map Task.name) [])
       else .error .cyclicDependency) := by
  rw [topological_sort, if_pos]
  rw [List.all_eq_true]
  intro t ht
  rw [List.all_eq_true]
  intro d hd
  exact lookupTask_isSome_iff.mpr (hreg t ht d hd)

lemma taskNames_length (tasks : List Task) :
    (taskNames tasks).length = tasks.length := by
  simp [taskNames]

lemma kahn_out_final {tasks : List Task} (hnd : (taskNames tasks).Nodup) :
    KFinal tasks (kahnLoop (graphAdj tasks) (tasks.length + 1) (initIndeg tasks)
      ((tasks.filter (fun t => t.dependencies.length == 0)).map Task.name) []) := by
  apply kahnLoop_spec hnd _ _ _ _ (KInv_init hnd)
  rw [taskNames_length]
  simp

lemma kahn_out_all_mem {tasks : List Task}
    (hnd : (taskNames tasks).Nodup)
    (hreg : ∀ t ∈ tasks, ∀ d ∈ t.dependencies, d ∈ taskNames tasks)
    (hacyc : Acyclic tasks) :
    ∀ n ∈ taskNames tasks,
      n ∈ kahnLoop (graphAdj tasks) (tasks.length + 1) (initIndeg tasks)
        ((tasks.filter (fun t => t.dependencies.length == 0)).map Task.name) [] := by
  obtain ⟨hnodup, hsub, horder, hcomplete⟩ := kahn_out_final hnd
  have hfin : Finite {x // x ∈ taskNames tasks} :=
    Set.Finite.to_subtype (taskNames tasks).finite_toSet
  let r : {x // x ∈ taskNames tasks} → {x // x ∈ taskNames tasks} → Prop :=
    fun a b => depRel tasks b.1 a.1
  have hirr : IsIrrefl _ (Relation.TransGen r) := by
    constructor
    intro a ha
    apply hacyc a.1
    rw [← Relation.transGen_swap]
    exact Relation.TransGen.lift Subtype.val (fun x y h => h) ha
  have htrans : IsTrans _ (Relation.TransGen r) := Relation.instIsTransTransGen
  have hwf' : WellFounded (Relation.TransGen r) :=
    Finite.wellFounded_of_trans_of_irrefl _
  have hwf : WellFounded r :=
    Subrelation.wf (fun h => Relation.TransGen.single h) hwf'
  intro n hn
  have main : ∀ a : {x // x ∈ taskNames tasks},
      a.1 ∈ kahnLoop (graphAdj tasks) (tasks.length + 1) (initIndeg tasks)
        ((tasks.filter (fun t => t.dependencies.length == 0)).map Task.name) [] := by
    intro a
    induction a using WellFounded.induction hwf with
    | _ a iha =>
      apply hcomplete a.1 a.2
      intro d hd
      obtain ⟨t, ht, hname⟩ := mem_taskNames.mp a.2
      have hdeq : depsOf tasks a.1 = t.dependencies := by
        rw [← hname, depsOf_of_mem hnd ht]
      have hdnames : d ∈ taskNames tasks := by
        apply hreg t ht
        rw [← hdeq]
        exact hd
      have hrel : r ⟨d, hdnames⟩ a := by
        refine ⟨t, ht, hname, ?_⟩
        rw [← hdeq]
        exact hd
      exact iha ⟨d, hdnames⟩ hrel
  exact main ⟨n, hn⟩

lemma mem_split_indexOf {out r1 : List String} {t : String} {r2 : List String}
    (hnd : out.Nodup) (hsplit : out = r1 ++ t :: r2) {d : String} (hd : d ∈ r1) :
    out.indexOf d < out.indexOf t := by
  subst hsplit
  rw [List.nodup_append] at hnd
  have htn1 : t ∉ r1 := fun h => hnd.2.2 h (List.mem_cons_self _ _)
  rw [List.indexOf_append_of_mem hd, List.indexOf_append_of_not_mem htn1]
  have := List.indexOf_lt_length.mpr hd
  simp only [List.indexOf_cons_self]
  omega

lemma kahn_out_order {tasks : List Task} {out : List String}
    (hnd2 : out.Nodup)
    (horder : ∀ r1 t r2, out = r1 ++ t :: r2 → ∀ d ∈ depsOf tasks t, d ∈ r1)
    {a d : String} (ha : a ∈ out) (hd : d ∈ depsOf tasks a) :
    out.indexOf d < out.indexOf a := by
  obtain ⟨r1, r2, hsplit⟩ := List.append_of_mem ha
  exact mem_split_indexOf hnd2 hsplit (horder r1 a r2 hsplit d hd)

lemma kahn_out_missing {tasks : List Task}
    (hnd : (taskNames tasks).Nodup)
    (hcyc : ∃ a, Relation.TransGen (depRel tasks) a a) :
    ∃ n ∈ taskNames tasks,
      n ∉ kahnLoop (graphAdj tasks) (tasks.length + 1) (initIndeg tasks)
        ((tasks.filter (fun t => t.dependencies.length == 0)).map Task.name) [] := by
  obtain ⟨hnodup, hsub, horder, _⟩ := kahn_out_final hnd
  obtain ⟨a, ha⟩ := hcyc
  set out := kahnLoop (graphAdj tasks) (tasks.length + 1) (initIndeg tasks)
    ((tasks.filter (fun t => t.dependencies.length == 0)).map Task.name) []
  by_contra hcontra
  push_neg at hcontra
  have hstep : ∀ x y, depRel tasks x y → x ∈ out →
      y ∈ out ∧ out.indexOf y < out.indexOf x := by
    intro x y hxy hx
    obtain ⟨t, ht, hname, hmem⟩ := hxy
    have hdeq : depsOf tasks x = t.dependencies := by
      rw [← hname, depsOf_of_mem hnd ht]
    have hyd : y ∈ depsOf tasks x := by
      rw [hdeq]
      exact hmem
    obtain ⟨r1, r2, hsplit⟩ := List.append_of_mem hx
    have hyr1 : y ∈ r1 := horder r1 x r2 hsplit y hyd
    refine ⟨by rw [hsplit]; exact List.mem_append_left _ hyr1, ?_⟩
    exact mem_split_indexOf hnodup hsplit hyr1
  have hchain : ∀ x y, Relation.TransGen (depRel tasks) x y → x ∈ out →
      y ∈ out ∧ out.indexOf y < out.indexOf x := by
    intro x y hxy
    induction hxy with
    | single h => exact fun hx => hstep _ _ h hx
    | tail hxz hzy ih =>
      intro hx
      obtain ⟨hz, hiz⟩ := ih hx
      obtain ⟨hy, hiy⟩ := hstep _ _ hzy hz
      exact ⟨hy, by omega⟩
  have hamem : a ∈ taskNames tasks := by
    obtain ⟨c, hac, _⟩ := Relation.TransGen.head'_iff.mp ha
    obtain ⟨t, ht, hname, _⟩ := hac
    exact mem_taskNames.mpr ⟨t, ht, hname⟩
  obtain ⟨_, hlt⟩ := hchain a a ha (hcontra a hamem)
  omega

end TopoSort

section PlanTheorems

lemma validate_eq_nil_iff {tasks : List Task} :
    validate_dependencies tasks = [] ↔
      ∀ t ∈ tasks, ∀ d ∈ t.dependencies, d ∈ taskNames tasks := by
  rw [validate_dependencies, List.flatMap_eq_nil_iff]
  constructor
  · intro h t ht d hd
    have := h t ht
    rw [List.map_eq_nil_iff, List.filter_eq_nil_iff] at this
    have := this d hd
    simpa using this
  · intro h t ht
    rw [List.map_eq_nil_iff, List.filter_eq_nil_iff]
    intro d hd
    simpa using h t ht d hd

lemma acyclic_of_measure (tasks : List Task) (f : String → Nat)
    (h : ∀ a b, depRel tasks a b → f b < f a) : Acyclic tasks := by
  intro a hab
  have mono : ∀ x y, Relation.TransGen (depRel tasks) x y → f y < f x := by
    intro x y hxy
    induction hxy with
    | single h1 => exact h _ _ h1
    | tail _ h2 ih => exact Nat.lt_trans (h _ _ h2) ih
  exact absurd (mono a a hab) (Nat.lt_irrefl _)

lemma topological_sort_acyclic {tasks : List Task}
    (hnd : (taskNames tasks).Nodup)
    (hreg : ∀ t ∈ tasks, ∀ d ∈ t.dependencies, d ∈ taskNames tasks)
    (hacyc : Acyclic tasks) :
    ∃ order, topological_sort tasks = .ok order ∧ order.Nodup ∧
      (∀ n, n ∈ order ↔ n ∈ taskNames tasks) ∧
      (∀ t ∈ tasks, ∀ d ∈ t.dependencies,
        order.indexOf d < order.indexOf t.name) := by
  obtain ⟨hnodup, hsub, horder, _⟩ := kahn_out_final hnd
  have hall := kahn_out_all_mem hnd hreg hacyc
  set out := kahnLoop (graphAdj tasks) (tasks.length + 1) (initIndeg tasks)
    ((tasks.filter (fun t => t.dependencies.length == 0)).map Task.name) []
    with hout
  have hiff : ∀ n, n ∈ out ↔ n ∈ taskNames tasks :=
    fun n => ⟨fun h => hsub n h, fun h => hall n h⟩
  have hlen : out.length = tasks.length := by
    have h1 := nodup_subset_length_le hnodup (fun x hx => hsub x hx)
    have h2 := nodup_subset_length_le hnd (fun x hx => hall x hx)
    rw [taskNames_length] at h1 h2
    omega
  refine ⟨out, ?_, hnodup, hiff, ?_⟩
  · rw [topological_sort_eq hreg, ← hout, if_pos hlen]
  · intro t ht d hd
    have hdmem : d ∈ depsOf tasks t.name := by
      rw [depsOf_of_mem hnd ht]
      exact hd
    exact kahn_out_order hnodup horder
      (hall t.name (mem_taskNames.mpr ⟨t, ht, rfl⟩)) hdmem

lemma topological_sort_cyclic {tasks : List Task}
    (hnd : (taskNames tasks).Nodup)
    (hreg : ∀ t ∈ tasks, ∀ d ∈ t.dependencies, d ∈ taskNames tasks)
    (hcyc : ∃ a, Relation.TransGen (depRel tasks) a a) :
    topological_sort tasks = .error .cyclicDependency ∧
      (kahnLoop (graphAdj tasks) (tasks.length + 1) (initIndeg tasks)
        ((tasks.filter (fun t => t.dependencies.length == 0)).map Task.name)
        []).length < tasks.length := by
  obtain ⟨hnodup, hsub, _, _⟩ := kahn_out_final hnd
  obtain ⟨n, hn, hnotin⟩ := kahn_out_missing hnd hcyc
  set out := kahnLoop (graphAdj tasks) (tasks.length + 1) (initIndeg tasks)
    ((tasks.filter (fun t => t.dependencies.length == 0)).map Task.name) []
    with hout
  have hne : out.length ≠ tasks.length := by
    intro heq
    apply hnotin
    apply nodup_subset_length_eq_mem hnodup (fun x hx => hsub x hx) _ n hn
    rw [taskNames_length]
    omega
  have hle : out.length ≤ tasks.length := by
    have := nodup_subset_length_le hnodup (fun x hx => hsub x hx)
    rw [taskNames_length] at this
    exact this
  constructor
  · rw [topological_sort_eq hreg, ← hout, if_neg hne]
  · omega

lemma plan_execution_acyclic {o : Orquestrador}
    (hnd : (taskNames o.tasks).Nodup)
    (hreg : ∀ t ∈ o.tasks, ∀ d ∈ t.dependencies, d ∈ taskNames o.tasks)
    (hacyc : Acyclic o.tasks) :
    ∃ order, (plan_execution o).2 = .ok order ∧ order.Nodup ∧
      (∀ n, n ∈ order ↔ n ∈ taskNames o.tasks) ∧
      (∀ t ∈ o.tasks, ∀ d ∈ t.dependencies,
        order.indexOf d < order.indexOf t.name) := by
  obtain ⟨order, hts, hrest⟩ := topological_sort_acyclic hnd hreg hacyc
  refine ⟨order, ?_, hrest⟩
  have hval : validate o = [] := validate_eq_nil_iff.mpr hreg
  rw [plan_execution, if_pos hval, hts]

lemma plan_execution_cyclic {o : Orquestrador}
    (hnd : (taskNames o.tasks).Nodup)
    (hreg : ∀ t ∈ o.tasks, ∀ d ∈ t.dependencies, d ∈ taskNames o.tasks)
    (hcyc : ∃ a, Relation.TransGen (depRel o.tasks) a a) :
    (plan_execution o).2 = .error .cyclicDependency := by
  have hval : validate o = [] := validate_eq_nil_iff.mpr hreg
  rw [plan_execution, if_pos hval, (topological_sort_cyclic hnd hreg hcyc).1]

lemma run_of_plan_error {o : Orquestrador} (hrun : o.is_running = false)
    {e : OrchError} (parallel : Bool)
    (hplan : (plan_execution
      { o with is_running := true, start_time := some o.clock,
               clock := o.clock + 1, results := [] }).2 = .error e) :
    (run o parallel).2 = .error e := by
  rcases hp : plan_execution
      { o with is_running := true, start_time := some o.clock,
               clock := o.clock + 1, results := [] }
    with ⟨o2, r⟩
  rw [hp] at hplan
  simp only at hplan
  subst hplan
  rw [run, if_neg (by rw [hrun]; exact Bool.false_ne_true)]
  simp only [hp]

end PlanTheorems

section ClaimC1C2

lemma diamond_acyclic : Acyclic oDiamond.tasks := by
  apply acyclic_of_measure _ diamondHeight
  rintro a b ⟨t, ht, hname, hdep⟩
  subst hname
  simp only [oDiamond, mkOrquestrador, List.mem_cons,
    List.not_mem_nil, or_false] at ht
  rcases ht with rfl | rfl | rfl | rfl
  · simp [mkTask] at hdep
  · simp [mkTask] at hdep
    subst hdep
    decide
  · simp [mkTask] at hdep
    subst hdep
    decide
  · simp [mkTask] at hdep
    rcases hdep with rfl | rfl <;> decide

lemma cycAB_cycle : ∃ a, Relation.TransGen (depRel oCycAB.tasks) a a := by
  have hab : depRel oCycAB.tasks "A" "B" :=
    ⟨mkTask "A" (wOk 1) ["B"] 0, by simp [oCycAB, mkOrquestrador],
      rfl, by simp [mkTask]⟩
  have hba : depRel oCycAB.tasks "B" "A" :=
    ⟨mkTask "B" (wOk 2) ["A"] 0, by simp [oCycAB, mkOrquestrador],
      rfl, by simp [mkTask]⟩
  exact ⟨"A", Relation.TransGen.head hab (Relation.TransGen.single hba)⟩

/-- C1: for every acyclic set of registered tasks whose dependencies all
reference registered names, `plan()` returns a list containing each task
name exactly once (no duplicates, and exactly the registered names), in
which every task appears after all of its dependencies. -/
theorem C1_plan_topological_order (o : Orquestrador)
    (hnd : (taskNames o.tasks).Nodup)
    (hreg : ∀ t ∈ o.tasks, ∀ d ∈ t.dependencies, d ∈ taskNames o.tasks)
    (hacyc : Acyclic o.tasks) :
    ∃ order, (plan_execution o).2 = .ok order ∧ order.Nodup ∧
      (∀ n, n ∈ order ↔ n ∈ taskNames o.tasks) ∧
      (∀ t ∈ o.tasks, ∀ d ∈ t.dependencies,
        order.indexOf d < order.indexOf t.name) :=
  plan_execution_acyclic hnd hreg hacyc

/-- Witness for C1: the diamond task set A, B(A), C(A), D(B, C). -/
theorem C1_witness :
    ((taskNames oDiamond.tasks).Nodup ∧
     (∀ t ∈ oDiamond.tasks, ∀ d ∈ t.dependencies, d ∈ taskNames oDiamond.tasks) ∧
     Acyclic oDiamond.tasks) ∧
    (∃ order, (plan_execution oDiamond).2 = .ok order ∧ order.Nodup ∧
      (∀ n, n ∈ order ↔ n ∈ taskNames oDiamond.tasks) ∧
      (∀ t ∈ oDiamond.tasks, ∀ d ∈ t.dependencies,
        order.indexOf d < order.indexOf t.name)) :=
  ⟨⟨by decide, by decide, diamond_acyclic⟩,
    C1_plan_topological_order oDiamond (by decide) (by decide) diamond_acyclic⟩

/-- C2: when every dependency references a registered task and the
dependency relation has a cycle, `plan()` fails with `CyclicDependency` —
the Kahn sequence is strictly shorter than the task count — and `run()` in
both sequential and parallel mode fails the same way. -/
theorem C2_cycle_fails (o : Orquestrador)
    (hnd : (taskNames o.tasks).Nodup)
    (hreg : ∀ t ∈ o.tasks, ∀ d ∈ t.dependencies, d ∈ taskNames o.tasks)
    (hcyc : ∃ a, Relation.TransGen (depRel o.tasks) a a)
    (hidle : o.is_running = false) :
    (plan_execution o).2 = .error .cyclicDependency ∧
    (kahnLoop (graphAdj o.tasks) (o.tasks.length + 1) (initIndeg o.tasks)
      ((o.tasks.filter (fun t => t.dependencies.length == 0)).map Task.name)
      []).length < o.tasks.length ∧
    (run o false).2 = .error .cyclicDependency ∧
    (run o true).2 = .error .cyclicDependency := by
  refine ⟨plan_execution_cyclic hnd hreg hcyc,
    (topological_sort_cyclic hnd hreg hcyc).2, ?_, ?_⟩
  · exact run_of_plan_error hidle false (plan_execution_cyclic hnd hreg hcyc)
  · exact run_of_plan_error hidle true (plan_execution_cyclic hnd hreg hcyc)

/-- Witness for C2: the two-cycle A depending on B depending on A. -/
theorem C2_witness :
    ((taskNames oCycAB.tasks).Nodup ∧
     (∀ t ∈ oCycAB.tasks, ∀ d ∈ t.dependencies, d ∈ taskNames oCycAB.tasks) ∧
     (∃ a, Relation.TransGen (depRel oCycAB.tasks) a a) ∧
     oCycAB.is_running = false) ∧
    ((plan_execution oCycAB).2 = .error .cyclicDependency ∧
     (kahnLoop (graphAdj oCycAB.tasks) (oCycAB.tasks.length + 1)
       (initIndeg oCycAB.tasks)
       ((oCycAB.tasks.filter (fun t => t.dependencies.length == 0)).map Task.name)
       []).length < oCycAB.tasks.length ∧
     (run oCycAB false).2 = .error .cyclicDependency ∧
     (run oCycAB true).2 = .error .cyclicDependency) :=
  ⟨⟨by decide, by decide, cycAB_cycle, rfl⟩,
    C2_cycle_fails oCycAB (by decide) (by decide) cycAB_cycle rfl⟩

end ClaimC1C2

section TaskStepLemmas

lemma lookupTask_updateTask_other {tasks : List Task} {n : String}
    {t' : Task} (m : String) (hm : m ≠ n) (hname : t'.name = n) :
    lookupTask (updateTask tasks n t') m = lookupTask tasks m := by
  induction tasks with
  | nil => rfl
  | cons t0 rest ih =>
    simp only [updateTask, List.map_cons, lookupTask, List.find?] at ih ⊢
    by_cases h0 : t0.name = n
    · rw [if_pos (by simpa using h0)]
      rw [show (t'.name == m) = false from by
        rw [hname]; simpa using fun h => hm h.symm]
      rw [show (t0.name == m) = false from by
        rw [h0]; simpa using fun h => hm h.symm]
      exact ih
    · rw [if_neg (by simpa using h0)]
      cases h1 : (t0.name == m) with
      | true => rfl
      | false => exact ih

lemma lookupTask_updateTask_same {tasks : List Task} {n : String}
    {t t' : Task} (hlk : lookupTask tasks n = some t) (hname : t'.name = n) :
    lookupTask (updateTask tasks n t') n = some t' := by
  induction tasks with
  | nil => simp [lookupTask] at hlk
  | cons t0 rest ih =>
    simp only [updateTask, List.map_cons, lookupTask, List.find?] at hlk ih ⊢
    by_cases h0 : t0.name = n
    · rw [if_pos (by simpa using h0)]
      rw [show (t'.name == n) = true from by simpa using hname]
    · rw [if_neg (by simpa using h0)]
      rw [show (t0.name == n) = false from by simpa using h0] at hlk ⊢
      exact ih hlk

lemma taskNames_updateTask {tasks : List Task} {n : String} {t' : Task}
    (hname : t'.name = n) :
    taskNames (updateTask tasks n t') = taskNames tasks := by
  induction tasks with
  | nil => rfl
  | cons t0 rest ih =>
    simp only [updateTask, taskNames, List.map_cons] at ih ⊢
    by_cases h0 : t0.name = n
    · rw [if_pos (by simpa using h0), ih, hname, h0]
    · rw [if_neg (by simpa using h0), ih]

lemma taskReset_statics (t : Task) :
    (taskReset t).name = t.name ∧ (taskReset t).dependencies = t.dependencies ∧
    (taskReset t).retry_count = t.retry_count ∧ (taskReset t).work = t.work ∧
    (taskReset t).calls = t.calls := by
  simp [taskReset]

lemma executeAttempts_statics :
    ∀ (n : Nat) (t : Task) (c : Nat),
      (executeAttempts n t c).1.name = t.name ∧
      (executeAttempts n t c).1.dependencies = t.dependencies ∧
      (executeAttempts n t c).1.retry_count = t.retry_count ∧
      (executeAttempts n t c).1.work = t.work := by
  intro n
  induction n with
  | zero =>
    intro t c
    exact ⟨rfl, rfl, rfl, rfl⟩
  | succ m ih =>
    intro t c
    rw [executeAttempts]
    cases hw : t.work t.calls with
    | ok v => exact ⟨rfl, rfl, rfl, rfl⟩
    | error e =>
      cases m with
      | zero => exact ⟨rfl, rfl, rfl, rfl⟩
      | succ k =>
        refine ⟨?_, ?_, ?_, ?_⟩
        · rw [(ih _ _).1]
          simp [taskReset]
        · rw [(ih _ _).2.1]
          simp [taskReset]
        · rw [(ih _ _).2.2.1]
          simp [taskReset]
        · rw [(ih _ _).2.2.2]
          simp [taskReset]

lemma executeAttempts_out :
    ∀ (n : Nat) (t : Task) (c : Nat), 0 < n →
      (∀ v, (executeAttempts n t c).2.2 = .ok v →
        (executeAttempts n t c).1.status = .completed ∧
        (executeAttempts n t c).1.result = some v) ∧
      (∀ e, (executeAttempts n t c).2.2 = .error e →
        (executeAttempts n t c).1.status = .failed ∧
        (executeAttempts n t c).1.error = some e) := by
  intro n
  induction n with
  | zero =>
    intro t c h
    exact absurd h (Nat.lt_irrefl 0)
  | succ m ih =>
    intro t c _
    rw [executeAttempts]
    cases hw : t.work t.calls with
    | ok v =>
      constructor
      · intro v2 hv2
        simp only at hv2
        cases hv2
        exact ⟨rfl, rfl⟩
      · intro e he
        simp only at he
        cases he
    | error e =>
      cases m with
      | zero =>
        constructor
        · intro v hv
          simp only at hv
          cases hv
        · intro e2 he2
          simp only at he2
          cases he2
          exact ⟨rfl, rfl⟩
      | succ k => exact ih _ _ (Nat.succ_pos k)

lemma executeAttempts_firstOk {t : Task} {v : Nat}
    (h : t.work t.calls = .ok v) (n c : Nat) :
    executeAttempts (n + 1) t c
      = ({ t with status := .completed, start_time := some c,
                  attempts := t.attempts + 1, calls := t.calls + 1,
                  result := some v, end_time := some (c + 1) },
         c + 2, .ok v) := by
  rw [executeAttempts, h]

end TaskStepLemmas

section ExecuteTaskLemmas

lemma execute_task_eq_ok {o : Orquestrador} {n : String} {t : Task} {v : Nat}
    (hlk : lookupTask o.tasks n = some t)
    (hout : (executeAttempts (t.retry_count + 1) t o.clock).2.2 = .ok v) :
    execute_task o n =
      ({ o with startLog := o.startLog ++ [(n, depsCompleted o t)],
                tasks := updateTask o.tasks n
                  (executeAttempts (t.retry_count + 1) t o.clock).1,
                clock := (executeAttempts (t.retry_count + 1) t o.clock).2.1,
                results := o.results ++ [(n, v)] }, .ok v) := by
  simp only [execute_task, hlk]
  rw [hout]

lemma execute_task_eq_err {o : Orquestrador} {n : String} {t : Task} {e : Nat}
    (hlk : lookupTask o.tasks n = some t)
    (hout : (executeAttempts (t.retry_count + 1) t o.clock).2.2 = .error e) :
    execute_task o n =
      ({ o with startLog := o.startLog ++ [(n, depsCompleted o t)],
                tasks := updateTask o.tasks n
                  (executeAttempts (t.retry_count + 1) t o.clock).1,
                clock := (executeAttempts (t.retry_count + 1) t o.clock).2.1 },
       .error (.taskFailed n e)) := by
  simp only [execute_task, hlk]
  rw [hout]

lemma depsOf_updateTask {tasks : List Task} {n : String} {t t' : Task}
    (hlk : lookupTask tasks n = some t) (hname : t'.name = n)
    (hdeps : t'.dependencies = t.dependencies) (m : String) :
    depsOf (updateTask tasks n t') m = depsOf tasks m := by
  by_cases hm : m = n
  · subst hm
    rw [depsOf, depsOf, lookupTask_updateTask_same hlk hname, hlk]
    exact hdeps
  · rw [depsOf, depsOf, lookupTask_updateTask_other m hm hname]

end ExecuteTaskLemmas

section SequentialLemmas

lemma run_sequential_inv (order : List String) :
    ∀ (o : Orquestrador),
      (taskNames o.tasks).Nodup →
      order.Nodup →
      (∀ n ∈ order, n ∈ taskNames o.tasks) →
      (∀ n ∈ order, statusOf o n = some .pending ∧ n ∉ resultKeys o) →
      (∀ n ∈ taskNames o.tasks,
        (n ∈ resultKeys o ↔ statusOf o n = some .completed)) →
      (∀ n ∈ resultKeys o, n ∈ taskNames o.tasks) →
      (taskNames (run_sequential o order).1.tasks = taskNames o.tasks) ∧
      (∀ n ∈ taskNames o.tasks,
        (n ∈ resultKeys (run_sequential o order).1 ↔
          statusOf (run_sequential o order).1 n = some .completed)) ∧
      (∀ f err, (run_sequential o order).2 = .error (.taskFailed f err) →
        statusOf (run_sequential o order).1 f = some .failed ∧
        f ∉ resultKeys (run_sequential o order).1) ∧
      (∀ n ∈ resultKeys (run_sequential o order).1, n ∈ taskNames o.tasks) := by
  induction order with
  | nil =>
    intro o hnd _ _ _ hinv hksub
    refine ⟨rfl, hinv, ?_, hksub⟩
    intro f err h
    simp [run_sequential] at h
  | cons n rest ih =>
    intro o hnd hord hsub hpend hinv hksub
    have hn : n ∈ taskNames o.tasks := hsub n (List.mem_cons_self _ _)
    obtain ⟨t, ht_mem, ht_name⟩ := mem_taskNames.mp hn
    have hlk : lookupTask o.tasks n = some t := by
      rw [← ht_name]
      exact lookupTask_of_mem hnd ht_mem
    have hstat := executeAttempts_statics (t.retry_count + 1) t o.clock
    have htname : (executeAttempts (t.retry_count + 1) t o.clock).1.name = n := by
      rw [hstat.1, ht_name]
    rw [List.nodup_cons] at hord
    cases hout : (executeAttempts (t.retry_count + 1) t o.clock).2.2 with
    | ok v =>
      have heq := execute_task_eq_ok hlk hout
      have hrun : run_sequential o (n :: rest)
          = run_sequential ({ o with
              startLog := o.startLog ++ [(n, depsCompleted o t)],
              tasks := updateTask o.tasks n
                (executeAttempts (t.retry_count + 1) t o.clock).1,
              clock := (executeAttempts (t.retry_count + 1) t o.clock).2.1,
              results := o.results ++ [(n, v)] }) rest := by
        rw [run_sequential, heq]
      set o1 : Orquestrador := { o with
              startLog := o.startLog ++ [(n, depsCompleted o t)],
              tasks := updateTask o.tasks n
                (executeAttempts (t.retry_count + 1) t o.clock).1,
              clock := (executeAttempts (t.retry_count + 1) t o.clock).2.1,
              results := o.results ++ [(n, v)] } with ho1
      have hnames1 : taskNames o1.tasks = taskNames o.tasks :=
        taskNames_updateTask htname
      have hlk_other : ∀ m, m ≠ n →
          lookupTask o1.tasks m = lookupTask o.tasks m := fun m hm =>
        lookupTask_updateTask_other m hm htname
      have hstat_self : statusOf o1 n = some .completed := by
        rw [statusOf]
        show (lookupTask (updateTask o.tasks n _) n).map Task.status = _
        rw [lookupTask_updateTask_same hlk htname]
        have := ((executeAttempts_out (t.retry_count + 1) t o.clock
          (Nat.succ_pos _)).1 v hout).1
        simp [this]
      have hkeys1 : resultKeys o1 = resultKeys o ++ [n] := by
        simp [resultKeys, ho1]
      have hstat_other : ∀ m, m ≠ n → statusOf o1 m = statusOf o m := by
        intro m hm
        rw [statusOf, statusOf]
        show (lookupTask (updateTask o.tasks n _) m).map Task.status = _
        rw [hlk_other m hm]
      obtain ⟨ihnames, ihinv, iherr, ihksub⟩ := ih o1
        (by rw [hnames1]; exact hnd)
        hord.2
        (by
          rw [hnames1]
          exact fun m hm => hsub m (List.mem_cons_of_mem _ hm))
        (by
          intro m hm
          have hmn : m ≠ n := fun h => hord.1 (h ▸ hm)
          have := hpend m (List.mem_cons_of_mem _ hm)
          rw [hstat_other m hmn, hkeys1]
          refine ⟨this.1, ?_⟩
          rw [List.mem_append, List.mem_singleton]
          rintro (h | h)
          · exact this.2 h
          · exact hmn h)
        (by
          intro m hm
          rw [hnames1] at hm
          by_cases hmn : m = n
          · subst hmn
            rw [hstat_self, hkeys1]
            simp
          · rw [hstat_other m hmn, hkeys1, List.mem_append, List.mem_singleton]
            have := hinv m hm
            constructor
            · rintro (h | h)
              · exact this.mp h
              · exact absurd h hmn
            · intro h
              exact Or.inl (this.mpr h))
        (by
          intro m hm
          rw [hkeys1, List.mem_append, List.mem_singleton] at hm
          rw [hnames1]
          rcases hm with h | h
          · exact hksub m h
          · exact h ▸ hn)
      rw [hrun]
      refine ⟨by rw [ihnames, hnames1], ?_, iherr, ?_⟩
      · intro m hm
        exact ihinv m (by rw [hnames1]; exact hm)
      · intro m hm
        rw [hnames1] at ihksub
        exact ihksub m hm
    | error e =>
      have heq := execute_task_eq_err hlk hout
      have hrun : run_sequential o (n :: rest)
          = ({ o with
              startLog := o.startLog ++ [(n, depsCompleted o t)],
              tasks := updateTask o.tasks n
                (executeAttempts (t.retry_count + 1) t o.clock).1,
              clock := (executeAttempts (t.retry_count + 1) t o.clock).2.1 },
             .error (.taskFailed n e)) := by
        rw [run_sequential, heq]
      set o1 : Orquestrador := { o with
              startLog := o.startLog ++ [(n, depsCompleted o t)],
              tasks := updateTask o.tasks n
                (executeAttempts (t.retry_count + 1) t o.clock).1,
              clock := (executeAttempts (t.retry_count + 1) t o.clock).2.1 }
        with ho1
      have hnames1 : taskNames o1.tasks = taskNames o.tasks :=
        taskNames_updateTask htname
      have hlk_other : ∀ m, m ≠ n →
          lookupTask o1.tasks m = lookupTask o.tasks m := fun m hm =>
        lookupTask_updateTask_other m hm htname
      have hstat_self : statusOf o1 n = some .failed := by
        rw [statusOf]
        show (lookupTask (updateTask o.tasks n _) n).map Task.status = _
        rw [lookupTask_updateTask_same hlk htname]
        have := ((executeAttempts_out (t.retry_count + 1) t o.clock
          (Nat.succ_pos _)).2 e hout).1
        simp [this]
      have hkeys1 : resultKeys o1 = resultKeys o := by
        simp [resultKeys, ho1]
      have hstat_other : ∀ m, m ≠ n → statusOf o1 m = statusOf o m := by
        intro m hm
        rw [statusOf, statusOf]
        show (lookupTask (updateTask o.tasks n _) m).map Task.status = _
        rw [hlk_other m hm]
      rw [hrun]
      refine ⟨hnames1, ?_, ?_, ?_⟩
      · intro m hm
        by_cases hmn : m = n
        · subst hmn
          rw [hstat_self, hkeys1]
          constructor
          · intro h
            exact absurd h (hpend m (List.mem_cons_self _ _)).2
          · intro h
            cases h
        · rw [hstat_other m hmn, hkeys1]
          exact hinv m hm
      · intro f err h
        simp only [Except.error.injEq, OrchError.taskFailed.injEq] at h
        obtain ⟨rfl, rfl⟩ := h
        rw [hstat_self, hkeys1]
        exact ⟨rfl, (hpend n (List.mem_cons_self _ _)).2⟩
      · intro m hm
        rw [hkeys1] at hm
        exact hksub m hm

lemma valOf_updateTask {tasks : List Task} {n : String} {t' : Task}
    (m : String) (hm : m ≠ n) (hname : t'.name = n) :
    valOf (updateTask tasks n t') m = valOf tasks m := by
  rw [valOf, valOf, lookupTask_updateTask_other m hm hname]

lemma run_sequential_error_split (order : List String) :
    ∀ (o : Orquestrador),
      (taskNames o.tasks).Nodup →
      order.Nodup →
      (∀ n ∈ order, n ∈ taskNames o.tasks) →
      ∀ e, (run_sequential o order).2 = .error e →
        ∃ f err done rest2, e = .taskFailed f err ∧
          order = done ++ f :: rest2 ∧
          resultKeys (run_sequential o order).1 = resultKeys o ++ done ∧
          statusOf (run_sequential o order).1 f = some .failed ∧
          (∀ m ∈ rest2, lookupTask (run_sequential o order).1.tasks m
            = lookupTask o.tasks m) := by
  induction order with
  | nil =>
    intro o _ _ _ e h
    simp [run_sequential] at h
  | cons n rest ih =>
    intro o hnd hord hsub e herr
    have hn : n ∈ taskNames o.tasks := hsub n (List.mem_cons_self _ _)
    obtain ⟨t, ht_mem, ht_name⟩ := mem_taskNames.mp hn
    have hlk : lookupTask o.tasks n = some t := by
      rw [← ht_name]
      exact lookupTask_of_mem hnd ht_mem
    have hstat := executeAttempts_statics (t.retry_count + 1) t o.clock
    have htname : (executeAttempts (t.retry_count + 1) t o.clock).1.name = n := by
      rw [hstat.1, ht_name]
    rw [List.nodup_cons] at hord
    cases hout : (executeAttempts (t.retry_count + 1) t o.clock).2.2 with
    | ok v =>
      have heq := execute_task_eq_ok hlk hout
      have hrun : run_sequential o (n :: rest)
          = run_sequential ({ o with
              startLog := o.startLog ++ [(n, depsCompleted o t)],
              tasks := updateTask o.tasks n
                (executeAttempts (t.retry_count + 1) t o.clock).1,
              clock := (executeAttempts (t.retry_count + 1) t o.clock).2.1,
              results := o.results ++ [(n, v)] }) rest := by
        rw [run_sequential, heq]
      set o1 : Orquestrador := { o with
              startLog := o.startLog ++ [(n, depsCompleted o t)],
              tasks := updateTask o.tasks n
                (executeAttempts (t.retry_count + 1) t o.clock).1,
              clock := (executeAttempts (t.retry_count + 1) t o.clock).2.1,
              results := o.results ++ [(n, v)] } with ho1
      have hnames1 : taskNames o1.tasks = taskNames o.tasks :=
        taskNames_updateTask htname
      have hkeys1 : resultKeys o1 = resultKeys o ++ [n] := by
        simp [resultKeys, ho1]
      rw [hrun] at herr ⊢
      obtain ⟨f, err, done, rest2, he, hsplit, hkeys, hstatf, huntouched⟩ :=
        ih o1 (by rw [hnames1]; exact hnd) hord.2
          (by
            rw [hnames1]
            exact fun m hm => hsub m (List.mem_cons_of_mem _ hm))
          e herr
      refine ⟨f, err, n :: done, rest2, he, by rw [hsplit]; simp, ?_, hstatf, ?_⟩
      · rw [hkeys, hkeys1]
        simp
      · intro m hm
        rw [huntouched m hm]
        have hm_rest : m ∈ rest := by
          rw [hsplit]
          exact List.mem_append_right _ (List.mem_cons_of_mem _ hm)
        have hmn : m ≠ n := fun h => hord.1 (h ▸ hm_rest)
        exact lookupTask_updateTask_other m hmn htname
    | error e2 =>
      have heq := execute_task_eq_err hlk hout
      have hrun : run_sequential o (n :: rest)
          = ({ o with
              startLog := o.startLog ++ [(n, depsCompleted o t)],
              tasks := updateTask o.tasks n
                (executeAttempts (t.retry_count + 1) t o.clock).1,
              clock := (executeAttempts (t.retry_count + 1) t o.clock).2.1 },
             .error (.taskFailed n e2)) := by
        rw [run_sequential, heq]
      rw [hrun] at herr ⊢
      simp only [Except.error.injEq] at herr
      refine ⟨n, e2, [], rest, herr.symm, by simp, ?_, ?_, ?_⟩
      · simp [resultKeys]
      · rw [statusOf]
        show (lookupTask (updateTask o.tasks n _) n).map Task.status = _
        rw [lookupTask_updateTask_same hlk htname]
        have := ((executeAttempts_out (t.retry_count + 1) t o.clock
          (Nat.succ_pos _)).2 e2 hout).1
        simp [this]
      · intro m hm
        have hmn : m ≠ n := fun h => hord.1 (h ▸ hm)
        exact lookupTask_updateTask_other m hmn htname

lemma run_sequential_log (order : List String) :
    ∀ (o : Orquestrador) (done : List String),
      (taskNames o.tasks).Nodup →
      order.Nodup →
      (∀ n ∈ order, n ∈ taskNames o.tasks) →
      (∀ n ∈ order, n ∉ done) →
      (∀ m ∈ done, statusOf o m = some .completed) →
      (∀ l1 m l2, order = l1 ++ m :: l2 →
        ∀ d ∈ depsOf o.tasks m, d ∈ done ++ l1) →
      ∀ p ∈ (run_sequential o order).1.startLog,
        p ∈ o.startLog ∨ p.2 = true := by
  induction order with
  | nil =>
    intro o done _ _ _ _ _ _ p hp
    exact Or.inl hp
  | cons n rest ih =>
    intro o done hnd hord hsub hdisj hdone hdeps
    have hn : n ∈ taskNames o.tasks := hsub n (List.mem_cons_self _ _)
    obtain ⟨t, ht_mem, ht_name⟩ := mem_taskNames.mp hn
    have hlk : lookupTask o.tasks n = some t := by
      rw [← ht_name]
      exact lookupTask_of_mem hnd ht_mem
    have hstat := executeAttempts_statics (t.retry_count + 1) t o.clock
    have htname : (executeAttempts (t.retry_count + 1) t o.clock).1.name = n := by
      rw [hstat.1, ht_name]
    rw [List.nodup_cons] at hord
    have hdc : depsCompleted o t = true := by
      rw [depsCompleted, List.all_eq_true]
      intro d hd
      have hdin : d ∈ done ++ ([] : List String) := by
        apply hdeps [] n rest (by simp) d
        rw [depsOf, hlk]
        exact hd
      rw [List.append_nil] at hdin
      have := hdone d hdin
      rw [statusOf, Option.map_eq_some'] at this
      obtain ⟨td, htd, htds⟩ := this
      rw [htd]
      simp [htds]
    cases hout : (executeAttempts (t.retry_count + 1) t o.clock).2.2 with
    | ok v =>
      have heq := execute_task_eq_ok hlk hout
      have hrun : run_sequential o (n :: rest)
          = run_sequential ({ o with
              startLog := o.startLog ++ [(n, depsCompleted o t)],
              tasks := updateTask o.tasks n
                (executeAttempts (t.retry_count + 1) t o.clock).1,
              clock := (executeAttempts (t.retry_count + 1) t o.clock).2.1,
              results := o.results ++ [(n, v)] }) rest := by
        rw [run_sequential, heq]
      set o1 : Orquestrador := { o with
              startLog := o.startLog ++ [(n, depsCompleted o t)],
              tasks := updateTask o.tasks n
                (executeAttempts (t.retry_count + 1) t o.clock).1,
              clock := (executeAttempts (t.retry_count + 1) t o.clock).2.1,
              results := o.results ++ [(n, v)] } with ho1
      have hnames1 : taskNames o1.tasks = taskNames o.tasks :=
        taskNames_updateTask htname
      have hlk_other : ∀ m, m ≠ n →
          lookupTask o1.tasks m = lookupTask o.tasks m := fun m hm =>
        lookupTask_updateTask_other m hm htname
      have hstat_self : statusOf o1 n = some .completed := by
        rw [statusOf]
        show (lookupTask (updateTask o.tasks n _) n).map Task.status = _
        rw [lookupTask_updateTask_same hlk htname]
        have := ((executeAttempts_out (t.retry_count + 1) t o.clock
          (Nat.succ_pos _)).1 v hout).1
        simp [this]
      have hdeps1 : ∀ m, depsOf o1.tasks m = depsOf o.tasks m := by
        intro m
        exact depsOf_updateTask hlk htname hstat.2.1 m
      rw [hrun]
      intro p hp
      rcases ih o1 (done ++ [n]) (by rw [hnames1]; exact hnd) hord.2
          (by
            rw [hnames1]
            exact fun m hm => hsub m (List.mem_cons_of_mem _ hm))
          (by
            intro m hm
            rw [List.mem_append, List.mem_singleton]
            rintro (h | h)
            · exact hdisj m (List.mem_cons_of_mem _ hm) h
            · exact hord.1 (h ▸ hm))
          (by
            intro m hm
            rw [List.mem_append, List.mem_singleton] at hm
            rcases hm with h | h
            · have hmn : m ≠ n := fun he => hdisj n (List.mem_cons_self _ _) (he ▸ h)
              rw [statusOf, hlk_other m hmn]
              exact hdone m h
            · exact h ▸ hstat_self)
          (by
            intro l1 m l2 hsp d hd
            rw [hdeps1] at hd
            have := hdeps (n :: l1) m l2 (by rw [hsp]; rfl) d hd
            simp only [List.append_assoc, List.singleton_append]
            simpa using this)
          p hp with hin | htrue
      · rw [ho1] at hin
        simp only [List.mem_append, List.mem_singleton] at hin
        rcases hin with h | h
        · exact Or.inl h
        · right
          rw [h, hdc]
      · exact Or.inr htrue
    | error e2 =>
      have heq := execute_task_eq_err hlk hout
      have hrun : run_sequential o (n :: rest)
          = ({ o with
              startLog := o.startLog ++ [(n, depsCompleted o t)],
              tasks := updateTask o.tasks n
                (executeAttempts (t.retry_count + 1) t o.clock).1,
              clock := (executeAttempts (t.retry_count + 1) t o.clock).2.1 },
             .error (.taskFailed n e2)) := by
        rw [run_sequential, heq]
      rw [hrun]
      intro p hp
      simp only [List.mem_append, List.mem_singleton] at hp
      rcases hp with h | h
      · exact Or.inl h
      · right
        rw [h, hdc]

lemma run_sequential_values (order : List String) :
    ∀ (o : Orquestrador),
      (taskNames o.tasks).Nodup →
      order.Nodup →
      (∀ n ∈ order, n ∈ taskNames o.tasks) →
      (∀ n ∈ order, ∃ v, valOf o.tasks n = some v) →
      (run_sequential o order).2 = .ok () ∧
      (run_sequential o order).1.results
        = o.results ++ order.map (fun n => (n, (valOf o.tasks n).getD 0)) := by
  induction order with
  | nil =>
    intro o _ _ _ _
    exact ⟨rfl, by simp [run_sequential]⟩
  | cons n rest ih =>
    intro o hnd hord hsub hval
    have hn : n ∈ taskNames o.tasks := hsub n (List.mem_cons_self _ _)
    obtain ⟨t, ht_mem, ht_name⟩ := mem_taskNames.mp hn
    have hlk : lookupTask o.tasks n = some t := by
      rw [← ht_name]
      exact lookupTask_of_mem hnd ht_mem
    have hstat := executeAttempts_statics (t.retry_count + 1) t o.clock
    have htname : (executeAttempts (t.retry_count + 1) t o.clock).1.name = n := by
      rw [hstat.1, ht_name]
    rw [List.nodup_cons] at hord
    obtain ⟨v, hv⟩ := hval n (List.mem_cons_self _ _)
    have hwork : t.work t.calls = .ok v := by
      rw [valOf, hlk] at hv
      have hv' : (t.work t.calls).toOption = some v := hv
      cases hw : t.work t.calls with
      | ok v2 =>
        rw [hw] at hv'
        simp [Except.toOption] at hv'
        rw [hv']
      | error e =>
        rw [hw] at hv'
        simp [Except.toOption] at hv'
    have hout : (executeAttempts (t.retry_count + 1) t o.clock).2.2 = .ok v := by
      rw [show t.retry_count + 1 = t.retry_count + 1 from rfl,
        executeAttempts_firstOk hwork]
    have heq := execute_task_eq_ok hlk hout
    have hrun : run_sequential o (n :: rest)
        = run_sequential ({ o with
            startLog := o.startLog ++ [(n, depsCompleted o t)],
            tasks := updateTask o.tasks n
              (executeAttempts (t.retry_count + 1) t o.clock).1,
            clock := (executeAttempts (t.retry_count + 1) t o.clock).2.1,
            results := o.results ++ [(n, v)] }) rest := by
      rw [run_sequential, heq]
    set o1 : Orquestrador := { o with
            startLog := o.startLog ++ [(n, depsCompleted o t)],
            tasks := updateTask o.tasks n
              (executeAttempts (t.retry_count + 1) t o.clock).1,
            clock := (executeAttempts (t.retry_count + 1) t o.clock).2.1,
            results := o.results ++ [(n, v)] } with ho1
    have hnames1 : taskNames o1.tasks = taskNames o.tasks :=
      taskNames_updateTask htname
    have hval1 : ∀ m, m ≠ n → valOf o1.tasks m = valOf o.tasks m := by
      intro m hm
      exact valOf_updateTask m hm htname
    obtain ⟨ihok, ihres⟩ := ih o1 (by rw [hnames1]; exact hnd) hord.2
      (by
        rw [hnames1]
        exact fun m hm => hsub m (List.mem_cons_of_mem _ hm))
      (by
        intro m hm
        have hmn : m ≠ n := fun h => hord.1 (h ▸ hm)
        rw [hval1 m hmn]
        exact hval m (List.mem_cons_of_mem _ hm))
    rw [hrun]
    refine ⟨ihok, ?_⟩
    rw [ihres]
    have hmap : rest.map (fun m => (m, (valOf o1.tasks m).getD 0))
        = rest.map (fun m => (m, (valOf o.tasks m).getD 0)) := by
      apply List.map_congr_left
      intro m hm
      have hmn : m ≠ n := fun h => hord.1 (h ▸ hm)
      rw [hval1 m hmn]
    rw [hmap, ho1]
    simp only [List.map_cons]
    rw [List.append_assoc, List.singleton_append]
    have hv0 : (valOf o.tasks n).getD 0 = v := by
      rw [hv]
      rfl
    rw [hv0]

end SequentialLemmas

section ClaimC3

/-- C3, evaluated at the failing input: a task with `retry_count = 2` whose
work fails on the first two invocations and succeeds on the third.  The run
succeeds and `results` holds the success value — but the task’s `attempts`
field ends at 1, not 3: `_execute_task` calls `task.reset()` between
retries and `Task.reset` zeroes `attempts`, so the counter is not
monotonically non-decreasing across the retries (it runs 1, 0, 1, 0, 1) and
the claimed final value 3 is not reached. -/
theorem C3_retry_attempts_code_bug :
    (run oRetry2 false).2 = .ok [("X", 42)] ∧
    statusOf (run oRetry2 false).1 "X" = some .completed ∧
    attemptsOf (run oRetry2 false).1 "X" = some 1 ∧
    (∀ t : Task, (taskReset t).attempts = 0) :=
  ⟨rfl, rfl, rfl, fun _ => rfl⟩

end ClaimC3

section ClaimC8

lemma remove_filter_length {tasks : List Task} {n : String}
    (hnd : (taskNames tasks).Nodup) (hn : n ∈ taskNames tasks) :
    (tasks.filter (fun t => !(t.name == n))).length + 1 = tasks.length := by
  induction tasks with
  | nil => cases hn
  | cons t0 rest ih =>
    simp only [taskNames, List.map_cons, List.nodup_cons] at hnd
    by_cases h0 : t0.name = n
    · have hfe : rest.filter (fun t => !(t.name == n)) = rest := by
        apply List.filter_eq_self.mpr
        intro t ht
        simp only [Bool.not_eq_eq_eq_not, Bool.not_true, beq_eq_false_iff_ne]
        intro he
        exact hnd.1 (h0 ▸ he ▸ List.mem_map.mpr ⟨t, ht, rfl⟩)
      rw [List.filter_cons, if_neg (by simp [h0]), hfe]
      simp
    · have hn' : n ∈ taskNames rest := by
        rcases mem_taskNames.mp hn with ⟨t, ht, htn⟩
        rcases List.mem_cons.mp ht with rfl | hr
        · exact absurd htn h0
        · exact mem_taskNames.mpr ⟨t, hr, htn⟩
      rw [List.filter_cons, if_pos (by simp [h0])]
      simp only [List.length_cons]
      rw [← ih hnd.2 hn']

lemma lookup_filter_ne {tasks : List Task} {n : String} (m : String)
    (hm : m ≠ n) :
    lookupTask (tasks.filter (fun t => !(t.name == n))) m
      = lookupTask tasks m := by
  induction tasks with
  | nil => rfl
  | cons t0 rest ih =>
    rw [List.filter_cons]
    by_cases h0 : t0.name = n
    · rw [if_neg (by simp [h0])]
      rw [show lookupTask (t0 :: rest) m
          = lookupTask rest m from by
        simp only [lookupTask, List.find?]
        rw [show (t0.name == m) = false from by
          rw [h0]; simpa using fun h => hm h.symm]]
      exact ih
    · rw [if_pos (by simp [h0])]
      simp only [lookupTask, List.find?]
      cases h1 : (t0.name == m) with
      | true => rfl
      | false => exact ih

lemma lookup_filter_self {tasks : List Task} {n : String} :
    lookupTask (tasks.filter (fun t => !(t.name == n))) n = none := by
  apply List.find?_eq_none.mpr
  intro t ht
  have := List.of_mem_filter ht
  simpa using this

/-- C8 (amended): `removeTask` fails with `TaskNotFound` on an unregistered
name; fails with `DependentsExist` (listing the dependent task names) when
any registered task — the task itself included — lists the name among its
dependencies; and otherwise removes the task, shrinking the task count by
exactly one and leaving every other task unchanged. -/
theorem C8_remove_task (o : Orquestrador) (n : String)
    (hnd : (taskNames o.tasks).Nodup) :
    (n ∉ taskNames o.tasks →
      remove_task o n = (o, .error (.taskNotFound n))) ∧
    (n ∈ taskNames o.tasks → (∃ t ∈ o.tasks, n ∈ t.dependencies) →
      remove_task o n = (o, .error (.dependentsExist n
        ((o.tasks.filter (fun t => t.dependencies.contains n)).map Task.name)))) ∧
    (n ∈ taskNames o.tasks → (∀ t ∈ o.tasks, n ∉ t.dependencies) →
      (remove_task o n).2 = .ok () ∧
      (remove_task o n).1.tasks.length + 1 = o.tasks.length ∧
      (∀ m, m ≠ n →
        lookupTask (remove_task o n).1.tasks m = lookupTask o.tasks m) ∧
      lookupTask (remove_task o n).1.tasks n = none) := by
  refine ⟨?_, ?_, ?_⟩
  · intro hn
    have h : (lookupTask o.tasks n).isSome = false := by
      rw [← Bool.not_eq_true]
      intro h
      exact hn (lookupTask_isSome_iff.mp h)
    rw [remove_task, if_neg (by simp [h])]
  · intro hn hdep
    obtain ⟨t, ht, htd⟩ := hdep
    rw [remove_task, if_pos (lookupTask_isSome_iff.mpr hn)]
    rw [if_neg]
    intro hempty
    rw [List.isEmpty_iff, List.map_eq_nil_iff, List.filter_eq_nil_iff] at hempty
    exact hempty t ht (by simpa using htd)
  · intro hn hdep
    have hfil : o.tasks.filter (fun t => t.dependencies.contains n) = [] := by
      apply List.filter_eq_nil_iff.mpr
      intro t ht
      simpa using hdep t ht
    rw [remove_task, if_pos (lookupTask_isSome_iff.mpr hn), hfil]
    rw [if_pos (by simp)]
    exact ⟨rfl, remove_filter_length hnd hn,
      fun m hm => lookup_filter_ne m hm, lookup_filter_self⟩

/-- Counterexample to C8 as stated: the self-dependent task S (registerable
per C10) has no other task depending on it, so the claim’s “otherwise
removes the task” branch applies; yet `removeTask` fails with
`DependentsExist` listing S itself, and the task count does not shrink. -/
theorem C8_counterexample :
    "S" ∈ taskNames oSelf.tasks ∧
    (∀ t ∈ oSelf.tasks, t.name ≠ "S" → ("S" : String) ∉ t.dependencies) ∧
    (remove_task oSelf "S").2 = .error (.dependentsExist "S" ["S"]) ∧
    (remove_task oSelf "S").1.tasks.length = oSelf.tasks.length :=
  ⟨by decide, by decide, rfl, rfl⟩

/-- Witness for the amended C8 on the diamond: removing depended-on "A"
fails listing B and C; removing the leaf "D" succeeds and shrinks the task
count from 4 to 3. -/
theorem C8_witness :
    ((taskNames oDiamond.tasks).Nodup ∧ "A" ∈ taskNames oDiamond.tasks ∧
      (∃ t ∈ oDiamond.tasks, "A" ∈ t.dependencies) ∧
      "D" ∈ taskNames oDiamond.tasks ∧
      (∀ t ∈ oDiamond.tasks, "D" ∉ t.dependencies)) ∧
    remove_task oDiamond "A" = (oDiamond, .error (.dependentsExist "A"
      ((oDiamond.tasks.filter (fun t => t.dependencies.contains "A")).map Task.name))) ∧
    ((remove_task oDiamond "D").2 = .ok () ∧
      (remove_task oDiamond "D").1.tasks.length + 1 = oDiamond.tasks.length ∧
      (∀ m, m ≠ "D" →
        lookupTask (remove_task oDiamond "D").1.tasks m = lookupTask oDiamond.tasks m) ∧
      lookupTask (remove_task oDiamond "D").1.tasks "D" = none) :=
  ⟨⟨by decide, by decide, by decide, by decide, by decide⟩,
    (C8_remove_task oDiamond "A" (by decide)).2.1 (by decide) (by decide),
    (C8_remove_task oDiamond "D" (by decide)).2.2 (by decide) (by decide)⟩

end ClaimC8

section ClaimC9

/-- C9: when no run is in progress, `reset()` succeeds, returns every task
to `Pending` with null timestamps, result and error and zero attempts, and
clears the results mapping; while a run is in progress it fails with
`CannotResetWhileRunning` and changes nothing. -/
theorem C9_reset (o : Orquestrador) :
    (o.is_running = false →
      (orchReset o).2 = .ok () ∧
      (orchReset o).1.results = [] ∧
      (∀ m t, lookupTask (orchReset o).1.tasks m = some t →
        t.status = .pending ∧ t.start_time = none ∧ t.end_time = none ∧
        t.result = none ∧ t.error = none ∧ t.attempts = 0)) ∧
    (o.is_running = true →
      orchReset o = (o, .error .cannotResetWhileRunning)) := by
  constructor
  · intro h
    rw [orchReset, if_neg (by simp [h])]
    refine ⟨rfl, rfl, ?_⟩
    intro m t hlk
    have hmem := List.mem_of_find?_eq_some hlk
    obtain ⟨t0, _, ht0⟩ := List.mem_map.mp hmem
    rw [← ht0]
    exact ⟨rfl, rfl, rfl, rfl, rfl, rfl⟩
  · intro h
    rw [orchReset, if_pos (by simp [h])]

/-- Witness for C9: resetting the state left by a finished run clears it;
resetting a running orchestrator is refused. -/
theorem C9_witness :
    (oRunDone.is_running = false ∧
      ((orchReset oRunDone).2 = .ok () ∧
       (orchReset oRunDone).1.results = [] ∧
       (∀ m t, lookupTask (orchReset oRunDone).1.tasks m = some t →
         t.status = .pending ∧ t.start_time = none ∧ t.end_time = none ∧
         t.result = none ∧ t.error = none ∧ t.attempts = 0))) ∧
    (oRunning.is_running = true ∧
      orchReset oRunning = (oRunning, .error .cannotResetWhileRunning)) :=
  ⟨⟨rfl, (C9_reset oRunDone).1 rfl⟩, ⟨rfl, (C9_reset oRunning).2 rfl⟩⟩

end ClaimC9

section ClaimC10

/-- C10: registering a task whose dependency list contains its own name
succeeds (only duplicate names are rejected), `validate()` reports no error
because the name references a registered task, and the self-cycle is only
caught when `plan()` fails with `CyclicDependency`. -/
theorem C10_self_dependency (o : Orquestrador) (n : String)
    (work : Nat → Except Nat Nat) (deps : List String) (retry : Nat)
    (hnd : (taskNames o.tasks).Nodup)
    (hreg : ∀ t ∈ o.tasks, ∀ d ∈ t.dependencies, d ∈ taskNames o.tasks)
    (hfresh : n ∉ taskNames o.tasks)
    (hself : n ∈ deps)
    (hdeps : ∀ d ∈ deps, d ∈ taskNames o.tasks ∨ d = n) :
    (add_task o n work deps retry).2 = .ok () ∧
    validate (add_task o n work deps retry).1 = [] ∧
    (plan_execution (add_task o n work deps retry).1).2
      = .error .cyclicDependency := by
  have hlkn : lookupTask o.tasks n = none := by
    cases hlk : lookupTask o.tasks n with
    | none => rfl
    | some t =>
      exact absurd (mem_taskNames.mpr ⟨t, (lookupTask_eq_some_mem hlk).1,
        (lookupTask_eq_some_mem hlk).2⟩) hfresh
  have hadd : add_task o n work deps retry
      = ({ o with tasks := o.tasks ++ [mkTask n work deps retry] }, .ok ()) := by
    rw [add_task, if_neg (by simp [hlkn])]
  rw [hadd]
  have hnames : taskNames (o.tasks ++ [mkTask n work deps retry])
      = taskNames o.tasks ++ [n] := by
    simp [taskNames, mkTask]
  have hnd' : (taskNames (o.tasks ++ [mkTask n work deps retry])).Nodup := by
    rw [hnames, List.nodup_append]
    exact ⟨hnd, List.nodup_singleton n, by
      intro x hx hx'
      rw [List.mem_singleton] at hx'
      exact hfresh (hx' ▸ hx)⟩
  have hreg' : ∀ t ∈ o.tasks ++ [mkTask n work deps retry],
      ∀ d ∈ t.dependencies,
        d ∈ taskNames (o.tasks ++ [mkTask n work deps retry]) := by
    intro t ht d hd
    rw [hnames, List.mem_append, List.mem_singleton]
    rcases List.mem_append.mp ht with h | h
    · exact Or.inl (hreg t h d hd)
    · rw [List.mem_singleton] at h
      subst h
      exact hdeps d hd
  have hcyc : ∃ a, Relation.TransGen
      (depRel (o.tasks ++ [mkTask n work deps retry])) a a := by
    refine ⟨n, Relation.TransGen.single ?_⟩
    exact ⟨mkTask n work deps retry,
      List.mem_append_right _ (List.mem_singleton_self _), rfl, hself⟩
  refine ⟨rfl, validate_eq_nil_iff.mpr hreg', ?_⟩
  exact plan_execution_cyclic hnd' hreg' hcyc

/-- Witness for C10: registering S depending on itself into an empty
orchestrator. -/
theorem C10_witness :
    ((taskNames (mkOrquestrador 4).tasks).Nodup ∧
     (∀ t ∈ (mkOrquestrador 4).tasks, ∀ d ∈ t.dependencies,
        d ∈ taskNames (mkOrquestrador 4).tasks) ∧
     "S" ∉ taskNames (mkOrquestrador 4).tasks ∧
     "S" ∈ ["S"] ∧
     (∀ d ∈ ["S"], d ∈ taskNames (mkOrquestrador 4).tasks ∨ d = "S")) ∧
    ((add_task (mkOrquestrador 4) "S" (wOk 1) ["S"] 0).2 = .ok () ∧
     validate (add_task (mkOrquestrador 4) "S" (wOk 1) ["S"] 0).1 = [] ∧
     (plan_execution (add_task (mkOrquestrador 4) "S" (wOk 1) ["S"] 0).1).2
       = .error .cyclicDependency) :=
  ⟨⟨by decide, by decide, by decide, by decide, by decide⟩,
    C10_self_dependency (mkOrquestrador 4) "S" (wOk 1) ["S"] 0
      (by decide) (by decide) (by decide) (by decide) (by decide)⟩

end ClaimC10

section BatchLemmas

lemma run_batch_spec (batch : List String) :
    ∀ (o : Orquestrador),
      (taskNames o.tasks).Nodup →
      batch.Nodup →
      (∀ n ∈ batch, n ∈ taskNames o.tasks) →
      (∀ n ∈ batch, statusOf o n = some .pending ∧ n ∉ resultKeys o) →
      (∀ n ∈ taskNames o.tasks,
        (n ∈ resultKeys o ↔ statusOf o n = some .completed)) →
      (∀ n ∈ batch, ∀ d ∈ depsOf o.tasks n,
        statusOf o d = some .completed) →
      (∀ n ∈ resultKeys o, n ∈ taskNames o.tasks) →
      (taskNames (run_batch o batch).1.tasks = taskNames o.tasks) ∧
      (∀ m, m ∉ batch →
        lookupTask (run_batch o batch).1.tasks m = lookupTask o.tasks m) ∧
      (∀ n ∈ taskNames o.tasks,
        (n ∈ resultKeys (run_batch o batch).1 ↔
          statusOf (run_batch o batch).1 n = some .completed)) ∧
      (∀ f err, (run_batch o batch).2 = .error (.taskFailed f err) →
        statusOf (run_batch o batch).1 f = some .failed ∧
        f ∉ resultKeys (run_batch o batch).1) ∧
      ((run_batch o batch).2 = .ok () →
        ∀ n ∈ batch, statusOf (run_batch o batch).1 n = some .completed) ∧
      (∀ p ∈ (run_batch o batch).1.startLog, p ∈ o.startLog ∨ p.2 = true) ∧
      (∀ m, depsOf (run_batch o batch).1.tasks m = depsOf o.tasks m) ∧
      ((run_batch o batch).1.execution_order = o.execution_order) ∧
      ((run_batch o batch).2 = .ok () →
        resultKeys (run_batch o batch).1 = resultKeys o ++ batch) ∧
      (∀ n ∈ resultKeys (run_batch o batch).1, n ∈ taskNames o.tasks) := by
  induction batch with
  | nil =>
    intro o _ _ _ _ h5 _ hksub
    refine ⟨rfl, fun m _ => rfl, h5, ?_, ?_, fun p hp => Or.inl hp,
      fun m => rfl, rfl, ?_, hksub⟩
    · intro f err h
      simp [run_batch] at h
    · intro _ n hn
      cases hn
    · intro _
      simp [run_batch, resultKeys]
  | cons n rest ih =>
    intro o hnd hord hsub hpend hinv hghost hksub
    have hn : n ∈ taskNames o.tasks := hsub n (List.mem_cons_self _ _)
    obtain ⟨t, ht_mem, ht_name⟩ := mem_taskNames.mp hn
    have hlk : lookupTask o.tasks n = some t := by
      rw [← ht_name]
      exact lookupTask_of_mem hnd ht_mem
    have hstat := executeAttempts_statics (t.retry_count + 1) t o.clock
    have htname : (executeAttempts (t.retry_count + 1) t o.clock).1.name = n := by
      rw [hstat.1, ht_name]
    rw [List.nodup_cons] at hord
    have hpendn : statusOf o n = some .pending :=
      (hpend n (List.mem_cons_self _ _)).1
    have hdc : depsCompleted o t = true := by
      rw [depsCompleted, List.all_eq_true]
      intro d hd
      have hds : statusOf o d = some .completed := by
        apply hghost n (List.mem_cons_self _ _) d
        rw [depsOf, hlk]
        exact hd
      rw [statusOf, Option.map_eq_some'] at hds
      obtain ⟨td, htd, htds⟩ := hds
      rw [htd]
      simp [htds]
    have hghost_ne : ∀ m ∈ rest, ∀ d ∈ depsOf o.tasks m, d ≠ n := by
      intro m hm d hd he
      have := hghost m (List.mem_cons_of_mem _ hm) d hd
      rw [he, hpendn] at this
      cases this
    cases hout : (executeAttempts (t.retry_count + 1) t o.clock).2.2 with
    | ok v =>
      have heq := execute_task_eq_ok hlk hout
      have hrun : run_batch o (n :: rest)
          = run_batch ({ o with
              startLog := o.startLog ++ [(n, depsCompleted o t)],
              tasks := updateTask o.tasks n
                (executeAttempts (t.retry_count + 1) t o.clock).1,
              clock := (executeAttempts (t.retry_count + 1) t o.clock).2.1,
              results := o.results ++ [(n, v)] }) rest := by
        rw [run_batch, heq]
      set o1 : Orquestrador := { o with
              startLog := o.startLog ++ [(n, depsCompleted o t)],
              tasks := updateTask o.tasks n
                (executeAttempts (t.retry_count + 1) t o.clock).1,
              clock := (executeAttempts (t.retry_count + 1) t o.clock).2.1,
              results := o.results ++ [(n, v)] } with ho1
      have hnames1 : taskNames o1.tasks = taskNames o.tasks :=
        taskNames_updateTask htname
      have hlk_other : ∀ m, m ≠ n →
          lookupTask o1.tasks m = lookupTask o.tasks m := fun m hm =>
        lookupTask_updateTask_other m hm htname
      have hstat_self : statusOf o1 n = some .completed := by
        rw [statusOf]
        show (lookupTask (updateTask o.tasks n _) n).map Task.status = _
        rw [lookupTask_updateTask_same hlk htname]
        have := ((executeAttempts_out (t.retry_count + 1) t o.clock
          (Nat.succ_pos _)).1 v hout).1
        simp [this]
      have hkeys1 : resultKeys o1 = resultKeys o ++ [n] := by
        simp [resultKeys, ho1]
      have hstat_other : ∀ m, m ≠ n → statusOf o1 m = statusOf o m := by
        intro m hm
        rw [statusOf, statusOf]
        show (lookupTask (updateTask o.tasks n _) m).map Task.status = _
        rw [hlk_other m hm]
      have hdeps1 : ∀ m, depsOf o1.tasks m = depsOf o.tasks m := fun m =>
        depsOf_updateTask hlk htname hstat.2.1 m
      obtain ⟨ih1, ih2, ih3, ih4, ih5, ih6, ih7, ih8, ih9, ih10⟩ := ih o1
        (by rw [hnames1]; exact hnd) hord.2
        (by
          rw [hnames1]
          exact fun m hm => hsub m (List.mem_cons_of_mem _ hm))
        (by
          intro m hm
          have hmn : m ≠ n := fun h => hord.1 (h ▸ hm)
          have := hpend m (List.mem_cons_of_mem _ hm)
          rw [hstat_other m hmn, hkeys1]
          refine ⟨this.1, ?_⟩
          rw [List.mem_append, List.mem_singleton]
          rintro (h | h)
          · exact this.2 h
          · exact hmn h)
        (by
          intro m hm
          rw [hnames1] at hm
          by_cases hmn : m = n
          · subst hmn
            rw [hstat_self, hkeys1]
            simp
          · rw [hstat_other m hmn, hkeys1, List.mem_append, List.mem_singleton]
            have := hinv m hm
            constructor
            · rintro (h | h)
              · exact this.mp h
              · exact absurd h hmn
            · intro h
              exact Or.inl (this.mpr h))
        (by
          intro m hm d hd
          rw [hdeps1] at hd
          have hdn : d ≠ n := hghost_ne m hm d hd
          rw [hstat_other d hdn]
          exact hghost m (List.mem_cons_of_mem _ hm) d hd)
        (by
          intro m hm
          rw [hkeys1, List.mem_append, List.mem_singleton] at hm
          rw [hnames1]
          rcases hm with h | h
          · exact hksub m h
          · exact h ▸ hn)
      rw [hrun]
      refine ⟨by rw [ih1, hnames1], ?_, ?_, ih4, ?_, ?_, ?_, ih8, ?_, ?_⟩
      · intro m hm
        rw [List.mem_cons, not_or] at hm
        rw [ih2 m hm.2]
        exact hlk_other m hm.1
      · intro m hm
        exact ih3 m (by rw [hnames1]; exact hm)
      · intro hok m hm
        rcases List.mem_cons.mp hm with rfl | hr
        · have := ih2 m hord.1
          rw [statusOf, this]
          rw [statusOf] at hstat_self
          exact hstat_self
        · exact ih5 hok m hr
      · intro p hp
        rcases ih6 p hp with h | h
        · rw [ho1] at h
          simp only [List.mem_append, List.mem_singleton] at h
          rcases h with h | h
          · exact Or.inl h
          · right
            rw [h, hdc]
        · exact Or.inr h
      · intro m
        rw [ih7, hdeps1]
      · intro hok
        rw [ih9 hok, hkeys1]
        simp
      · intro m hm
        rw [hnames1] at ih10
        exact ih10 m hm
    | error e =>
      have heq := execute_task_eq_err hlk hout
      have hrun : run_batch o (n :: rest)
          = ((run_batch ({ o with
              startLog := o.startLog ++ [(n, depsCompleted o t)],
              tasks := updateTask o.tasks n
                (executeAttempts (t.retry_count + 1) t o.clock).1,
              clock := (executeAttempts (t.retry_count + 1) t o.clock).2.1 })
              rest).1,
             .error (.taskFailed n e)) := by
        rw [run_batch, heq]
      set o1 : Orquestrador := { o with
              startLog := o.startLog ++ [(n, depsCompleted o t)],
              tasks := updateTask o.tasks n
                (executeAttempts (t.retry_count + 1) t o.clock).1,
              clock := (executeAttempts (t.retry_count + 1) t o.clock).2.1 }
        with ho1
      have hnames1 : taskNames o1.tasks = taskNames o.tasks :=
        taskNames_updateTask htname
      have hlk_other : ∀ m, m ≠ n →
          lookupTask o1.tasks m = lookupTask o.tasks m := fun m hm =>
        lookupTask_updateTask_other m hm htname
      have hstat_self : statusOf o1 n = some .failed := by
        rw [statusOf]
        show (lookupTask (updateTask o.tasks n _) n).map Task.status = _
        rw [lookupTask_updateTask_same hlk htname]
        have := ((executeAttempts_out (t.retry_count + 1) t o.clock
          (Nat.succ_pos _)).2 e hout).1
        simp [this]
      have hkeys1 : resultKeys o1 = resultKeys o := by
        simp [resultKeys, ho1]
      have hstat_other : ∀ m, m ≠ n → statusOf o1 m = statusOf o m := by
        intro m hm
        rw [statusOf, statusOf]
        show (lookupTask (updateTask o.tasks n _) m).map Task.status = _
        rw [hlk_other m hm]
      have hdeps1 : ∀ m, depsOf o1.tasks m = depsOf o.tasks m := fun m =>
        depsOf_updateTask hlk htname hstat.2.1 m
      obtain ⟨ih1, ih2, ih3, ih4, ih5, ih6, ih7, ih8, ih9, ih10⟩ := ih o1
        (by rw [hnames1]; exact hnd) hord.2
        (by
          rw [hnames1]
          exact fun m hm => hsub m (List.mem_cons_of_mem _ hm))
        (by
          intro m hm
          have hmn : m ≠ n := fun h => hord.1 (h ▸ hm)
          have := hpend m (List.mem_cons_of_mem _ hm)
          rw [hstat_other m hmn, hkeys1]
          exact this)
        (by
          intro m hm
          rw [hnames1] at hm
          by_cases hmn : m = n
          · subst hmn
            rw [hstat_self, hkeys1]
            constructor
            · intro h
              exact absurd h (hpend m (List.mem_cons_self _ _)).2
            · intro h
              cases h
          · rw [hstat_other m hmn, hkeys1]
            exact hinv m hm)
        (by
          intro m hm d hd
          rw [hdeps1] at hd
          have hdn : d ≠ n := hghost_ne m hm d hd
          rw [hstat_other d hdn]
          exact hghost m (List.mem_cons_of_mem _ hm) d hd)
        (by
          intro m hm
          rw [hkeys1] at hm
          rw [hnames1]
          exact hksub m hm)
      rw [hrun]
      refine ⟨by rw [ih1, hnames1], ?_, ?_, ?_, ?_, ?_, ?_, ih8, ?_, ?_⟩
      · intro m hm
        rw [List.mem_cons, not_or] at hm
        rw [ih2 m hm.2]
        exact hlk_other m hm.1
      · intro m hm
        exact ih3 m (by rw [hnames1]; exact hm)
      · intro f err h
        simp only [Except.error.injEq, OrchError.taskFailed.injEq] at h
        obtain ⟨rfl, rfl⟩ := h
        have hsn : statusOf (run_batch o1 rest).1 n = some .failed := by
          have := ih2 n hord.1
          rw [statusOf, this]
          rw [statusOf] at hstat_self
          exact hstat_self
        refine ⟨hsn, ?_⟩
        intro hmem
        have := (ih3 n (by rw [hnames1]; exact hn)).mp hmem
        rw [hsn] at this
        cases this
      · intro h
        cases h
      · intro p hp
        rcases ih6 p hp with h | h
        · rw [ho1] at h
          simp only [List.mem_append, List.mem_singleton] at h
          rcases h with h | h
          · exact Or.inl h
          · right
            rw [h, hdc]
        · exact Or.inr h
      · intro m
        rw [ih7, hdeps1]
      · intro h
        cases h
      · intro m hm
        rw [hnames1] at ih10
        exact ih10 m hm

lemma run_batch_values (batch : List String) :
    ∀ (o : Orquestrador),
      (taskNames o.tasks).Nodup →
      batch.Nodup →
      (∀ n ∈ batch, n ∈ taskNames o.tasks) →
      (∀ n ∈ batch, ∃ v, valOf o.tasks n = some v) →
      (run_batch o batch).2 = .ok () ∧
      (run_batch o batch).1.results
        = o.results ++ batch.map (fun n => (n, (valOf o.tasks n).getD 0)) ∧
      taskNames (run_batch o batch).1.tasks = taskNames o.tasks ∧
      (∀ m, m ∉ batch →
        lookupTask (run_batch o batch).1.tasks m = lookupTask o.tasks m) ∧
      (∀ m, depsOf (run_batch o batch).1.tasks m = depsOf o.tasks m) ∧
      ((run_batch o batch).1.execution_order = o.execution_order) := by
  induction batch with
  | nil =>
    intro o _ _ _ _
    exact ⟨rfl, by simp [run_batch], rfl, fun m _ => rfl, fun m => rfl, rfl⟩
  | cons n rest ih =>
    intro o hnd hord hsub hval
    have hn : n ∈ taskNames o.tasks := hsub n (List.mem_cons_self _ _)
    obtain ⟨t, ht_mem, ht_name⟩ := mem_taskNames.mp hn
    have hlk : lookupTask o.tasks n = some t := by
      rw [← ht_name]
      exact lookupTask_of_mem hnd ht_mem
    have hstat := executeAttempts_statics (t.retry_count + 1) t o.clock
    have htname : (executeAttempts (t.retry_count + 1) t o.clock).1.name = n := by
      rw [hstat.1, ht_name]
    rw [List.nodup_cons] at hord
    obtain ⟨v, hv⟩ := hval n (List.mem_cons_self _ _)
    have hwork : t.work t.calls = .ok v := by
      rw [valOf, hlk] at hv
      have hv' : (t.work t.calls).toOption = some v := hv
      cases hw : t.work t.calls with
      | ok v2 =>
        rw [hw] at hv'
        simp [Except.toOption] at hv'
        rw [hv']
      | error e =>
        rw [hw] at hv'
        simp [Except.toOption] at hv'
    have hout : (executeAttempts (t.retry_count + 1) t o.clock).2.2 = .ok v := by
      rw [executeAttempts_firstOk hwork]
    have heq := execute_task_eq_ok hlk hout
    have hrun : run_batch o (n :: rest)
        = run_batch ({ o with
            startLog := o.startLog ++ [(n, depsCompleted o t)],
            tasks := updateTask o.tasks n
              (executeAttempts (t.retry_count + 1) t o.clock).1,
            clock := (executeAttempts (t.retry_count + 1) t o.clock).2.1,
            results := o.results ++ [(n, v)] }) rest := by
      rw [run_batch, heq]
    set o1 : Orquestrador := { o with
            startLog := o.startLog ++ [(n, depsCompleted o t)],
            tasks := updateTask o.tasks n
              (executeAttempts (t.retry_count + 1) t o.clock).1,
            clock := (executeAttempts (t.retry_count + 1) t o.clock).2.1,
            results := o.results ++ [(n, v)] } with ho1
    have hnames1 : taskNames o1.tasks = taskNames o.tasks :=
      taskNames_updateTask htname
    have hlk_other : ∀ m, m ≠ n →
        lookupTask o1.tasks m = lookupTask o.tasks m := fun m hm =>
      lookupTask_updateTask_other m hm htname
    have hval1 : ∀ m, m ≠ n → valOf o1.tasks m = valOf o.tasks m := by
      intro m hm
      exact valOf_updateTask m hm htname
    have hdeps1 : ∀ m, depsOf o1.tasks m = depsOf o.tasks m := fun m =>
      depsOf_updateTask hlk htname hstat.2.1 m
    obtain ⟨ih1, ih2, ih3, ih4, ih5, ih6⟩ := ih o1
      (by rw [hnames1]; exact hnd) hord.2
      (by
        rw [hnames1]
        exact fun m hm => hsub m (List.mem_cons_of_mem _ hm))
      (by
        intro m hm
        have hmn : m ≠ n := fun h => hord.1 (h ▸ hm)
        rw [hval1 m hmn]
        exact hval m (List.mem_cons_of_mem _ hm))
    rw [hrun]
    refine ⟨ih1, ?_, by rw [ih3, hnames1], ?_, ?_, ih6⟩
    · rw [ih2]
      have hmap : rest.map (fun m => (m, (valOf o1.tasks m).getD 0))
          = rest.map (fun m => (m, (valOf o.tasks m).getD 0)) := by
        apply List.map_congr_left
        intro m hm
        have hmn : m ≠ n := fun h => hord.1 (h ▸ hm)
        rw [hval1 m hmn]
      rw [hmap, ho1]
      simp only [List.map_cons]
      rw [List.append_assoc, List.singleton_append]
      have hv0 : (valOf o.tasks n).getD 0 = v := by
        rw [hv]
        rfl
      rw [hv0]
    · intro m hm
      rw [List.mem_cons, not_or] at hm
      rw [ih4 m hm.2]
      exact hlk_other m hm.1
    · intro m
      rw [ih5, hdeps1]

lemma lookup_append_left {xs ys : List (String × Nat)} {n : String}
    (h : n ∈ xs.map Prod.fst) :
    List.lookup n (xs ++ ys) = List.lookup n xs := by
  induction xs with
  | nil => cases h
  | cons p rest ih =>
    simp only [List.cons_append, List.lookup]
    cases hb : (n == p.1) with
    | true => rfl
    | false =>
      apply ih
      simp only [List.map_cons, List.mem_cons] at h
      rcases h with h | h
      · rw [h] at hb
        simp at hb
      · exact h

lemma lookup_append_right {xs ys : List (String × Nat)} {n : String}
    (h : n ∉ xs.map Prod.fst) :
    List.lookup n (xs ++ ys) = List.lookup n ys := by
  induction xs with
  | nil => rfl
  | cons p rest ih =>
    simp only [List.map_cons, List.mem_cons, not_or] at h
    simp only [List.cons_append, List.lookup]
    rw [show (n == p.1) = false from by simpa using h.1]
    exact ih h.2

lemma lookup_eq_none_of_not_mem {xs : List (String × Nat)} {n : String}
    (h : n ∉ xs.map Prod.fst) : List.lookup n xs = none := by
  induction xs with
  | nil => rfl
  | cons p rest ih =>
    simp only [List.map_cons, List.mem_cons, not_or] at h
    simp only [List.lookup]
    rw [show (n == p.1) = false from by simpa using h.1]
    exact ih h.2

lemma lookup_map_self {l : List String} {n : String} {f : String → Nat}
    (h : n ∈ l) :
    List.lookup n (l.map (fun m => (m, f m))) = some (f n) := by
  induction l with
  | nil => cases h
  | cons a rest ih =>
    simp only [List.map_cons, List.lookup]
    by_cases hna : n = a
    · rw [show (n == a) = true from by simpa using hna, hna]
    · rw [show (n == a) = false from by simpa using hna]
      rcases List.mem_cons.mp h with h1 | h1
      · exact absurd h1 hna
      · exact ih h1

end BatchLemmas

section RunAssembly

lemma topological_sort_ok_props {tasks : List Task} {order : List String}
    (hnd : (taskNames tasks).Nodup)
    (h : topological_sort tasks = .ok order) :
    order.Nodup ∧
    (∀ n, n ∈ order ↔ n ∈ taskNames tasks) ∧
    (∀ l1 m l2, order = l1 ++ m :: l2 → ∀ d ∈ depsOf tasks m, d ∈ l1) := by
  rw [topological_sort] at h
  by_cases hc : tasks.all (fun t =>
      t.dependencies.all (fun d => (lookupTask tasks d).isSome)) = true
  · rw [if_pos hc] at h
    obtain ⟨hnodup, hsub, horder, _⟩ := kahn_out_final hnd
    set out := kahnLoop (graphAdj tasks) (tasks.length + 1) (initIndeg tasks)
      ((tasks.filter (fun t => t.dependencies.length == 0)).map Task.name) []
      with hout
    by_cases hlen : out.length = tasks.length
    · rw [if_pos hlen] at h
      have : out = order := by
        injection h
      subst this
      refine ⟨hnodup, ?_, horder⟩
      intro n
      constructor
      · exact fun hm => hsub n hm
      · intro hm
        apply nodup_subset_length_eq_mem hnodup (fun x hx => hsub x hx) _ n hm
        rw [taskNames_length]
        omega
    · rw [if_neg hlen] at h
      cases h
  · rw [if_neg hc] at h
    cases h

lemma plan_execution_fst_of_ok {o : Orquestrador} {order : List String}
    (h : (plan_execution o).2 = .ok order) :
    (plan_execution o).1 = { o with execution_order := order } := by
  rw [plan_execution] at h ⊢
  by_cases hval : validate o = []
  · rw [if_pos hval] at h ⊢
    cases hts : topological_sort o.tasks with
    | ok ord2 =>
      rw [hts] at h
      simp only at h ⊢
      have h2 : ord2 = order := by
        injection h
      rw [h2]
    | error e =>
      rw [hts] at h
      simp at h
  · rw [if_neg hval] at h
    cases h

lemma plan_execution_snd_ok_topo {o : Orquestrador} {order : List String}
    (h : (plan_execution o).2 = .ok order) :
    topological_sort o.tasks = .ok order := by
  rw [plan_execution] at h
  by_cases hval : validate o = []
  · rw [if_pos hval] at h
    cases hts : topological_sort o.tasks with
    | ok ord2 =>
      rw [hts] at h
      simp only at h
      exact h
    | error e =>
      rw [hts] at h
      simp at h
  · rw [if_neg hval] at h
    cases h

lemma plan_execution_error_shape {o : Orquestrador} {e : OrchError}
    (h : (plan_execution o).2 = .error e) :
    e = .validationErrors (validate o) ∨ e = .cyclicDependency ∨
      e = .keyError := by
  rw [plan_execution] at h
  by_cases hval : validate o = []
  · rw [if_pos hval] at h
    rw [topological_sort] at h
    by_cases hc : o.tasks.all (fun t =>
        t.dependencies.all (fun d => (lookupTask o.tasks d).isSome)) = true
    · rw [if_pos hc] at h
      by_cases hlen : (kahnLoop (graphAdj o.tasks) (o.tasks.length + 1)
          (initIndeg o.tasks)
          ((o.tasks.filter (fun t => t.dependencies.length == 0)).map Task.name)
          []).length = o.tasks.length
      · rw [if_pos hlen] at h
        cases h
      · rw [if_neg hlen] at h
        simp only [Except.error.injEq] at h
        exact Or.inr (Or.inl h.symm)
    · rw [if_neg hc] at h
      simp only [Except.error.injEq] at h
      exact Or.inr (Or.inr h.symm)
  · rw [if_neg hval] at h
    simp only [Except.error.injEq] at h
    exact Or.inl h.symm

lemma run_eq_of_plan_error {o : Orquestrador} (hidle : o.is_running = false)
    {e : OrchError}
    (hplan : (plan_execution (runStart o)).2 = .error e) (parallel : Bool) :
    run o parallel
      = ({ (plan_execution (runStart o)).1 with is_running := false },
         .error e) := by
  rcases hp : plan_execution (runStart o) with ⟨o2p, rr⟩
  rw [hp] at hplan
  simp only at hplan
  subst hplan
  rw [runStart] at hp
  rw [run, if_neg (by rw [hidle]; exact Bool.false_ne_true)]
  simp only [hp]

lemma run_eq_of_plan_ok {o : Orquestrador} (hidle : o.is_running = false)
    {order : List String}
    (hplan : (plan_execution (runStart o)).2 = .ok order) (parallel : Bool) :
    run o parallel =
      (let r := if parallel
          then run_parallel { runStart o with execution_order := order }
          else run_sequential { runStart o with execution_order := order } order
       match r.2 with
       | .ok _ =>
         ({ r.1 with end_time := some r.1.clock, clock := r.1.clock + 1,
                     is_running := false },
          .ok r.1.results)
       | .error e => ({ r.1 with is_running := false }, .error e)) := by
  have hfst := plan_execution_fst_of_ok hplan
  rcases hp : plan_execution (runStart o) with ⟨o2p, rr⟩
  rw [hp] at hplan hfst
  simp only at hplan hfst
  subst hplan
  subst hfst
  rw [runStart] at hp
  rw [run, if_neg (by rw [hidle]; exact Bool.false_ne_true)]
  simp only [hp]
  rw [runStart]

end RunAssembly

section ParallelLoop

lemma run_parallel_loop_succ (fuel : Nat) (o : Orquestrador)
    (completed : List String) :
    run_parallel_loop (fuel + 1) o completed =
      (if completed.length < o.tasks.length then
        (let ready := o.execution_order.filter (fun n =>
          !(completed.contains n) &&
            (match lookupTask o.tasks n with
             | some t => t.dependencies.all (fun d => completed.contains d)
             | none => false))
         if ready.isEmpty then (o, .ok ())
         else
           match run_batch o ready with
           | (o', .ok _) => run_parallel_loop fuel o' (completed ++ ready)
           | (o', .error e) => (o', .error e))
       else (o, .ok ())) := rfl

lemma mem_ready_iff {o : Orquestrador} {completed : List String} {n : String} :
    (n ∈ o.execution_order.filter (fun n =>
        !(completed.contains n) &&
          (match lookupTask o.tasks n with
           | some t => t.dependencies.all (fun d => completed.contains d)
           | none => false))) ↔
      (n ∈ o.execution_order ∧ n ∉ completed ∧
        ∃ t, lookupTask o.tasks n = some t ∧
          ∀ d ∈ t.dependencies, d ∈ completed) := by
  rw [List.mem_filter]
  constructor
  · rintro ⟨hmem, hcond⟩
    rw [Bool.and_eq_true] at hcond
    obtain ⟨hc1, hc2⟩ := hcond
    refine ⟨hmem, by simpa using hc1, ?_⟩
    cases hlk : lookupTask o.tasks n with
    | none =>
      rw [hlk] at hc2
      cases hc2
    | some t =>
      rw [hlk] at hc2
      refine ⟨t, rfl, ?_⟩
      intro d hd
      rw [List.all_eq_true] at hc2
      simpa using hc2 d hd
  · rintro ⟨hmem, hnc, t, hlk, hdeps⟩
    refine ⟨hmem, ?_⟩
    rw [Bool.and_eq_true]
    refine ⟨by simpa using hnc, ?_⟩
    rw [hlk, List.all_eq_true]
    intro d hd
    simpa using hdeps d hd

lemma first_not_mem_split {l completed : List String}
    (h : ∃ n ∈ l, n ∉ completed) :
    ∃ l1 n l2, l = l1 ++ n :: l2 ∧ n ∉ completed ∧ ∀ m ∈ l1, m ∈ completed := by
  induction l with
  | nil =>
    obtain ⟨n, hn, _⟩ := h
    cases hn
  | cons a rest ih =>
    by_cases ha : a ∈ completed
    · have h' : ∃ n ∈ rest, n ∉ completed := by
        obtain ⟨n, hn, hnc⟩ := h
        rcases List.mem_cons.mp hn with rfl | hr
        · exact absurd ha hnc
        · exact ⟨n, hr, hnc⟩
      obtain ⟨l1, n, l2, hsp, hnc, hall⟩ := ih h'
      refine ⟨a :: l1, n, l2, by rw [hsp]; rfl, hnc, ?_⟩
      intro m hm
      rcases List.mem_cons.mp hm with rfl | hr
      · exact ha
      · exact hall m hr
    · exact ⟨[], a, rest, rfl, ha, by intro m hm; cases hm⟩

lemma run_parallel_loop_inv (fuel : Nat) :
    ∀ (o : Orquestrador) (completed : List String),
      (taskNames o.tasks).Nodup →
      o.execution_order.Nodup →
      (∀ n ∈ o.execution_order, n ∈ taskNames o.tasks) →
      (∀ c ∈ completed, statusOf o c = some .completed) →
      (∀ n ∈ taskNames o.tasks, n ∉ completed →
        statusOf o n = some .pending ∧ n ∉ resultKeys o) →
      (∀ n ∈ taskNames o.tasks,
        (n ∈ resultKeys o ↔ statusOf o n = some .completed)) →
      (∀ n ∈ resultKeys o, n ∈ taskNames o.tasks) →
      (taskNames (run_parallel_loop fuel o completed).1.tasks
        = taskNames o.tasks) ∧
      (∀ n ∈ taskNames o.tasks,
        (n ∈ resultKeys (run_parallel_loop fuel o completed).1 ↔
          statusOf (run_parallel_loop fuel o completed).1 n
            = some .completed)) ∧
      (∀ f err, (run_parallel_loop fuel o completed).2
          = .error (.taskFailed f err) →
        statusOf (run_parallel_loop fuel o completed).1 f = some .failed ∧
        f ∉ resultKeys (run_parallel_loop fuel o completed).1) ∧
      (∀ p ∈ (run_parallel_loop fuel o completed).1.startLog,
        p ∈ o.startLog ∨ p.2 = true) ∧
      (∀ n ∈ resultKeys (run_parallel_loop fuel o completed).1,
        n ∈ taskNames o.tasks) := by
  induction fuel with
  | zero =>
    intro o completed hnd _ _ _ _ hinv hksub
    refine ⟨rfl, hinv, ?_, fun p hp => Or.inl hp, hksub⟩
    intro f err h
    cases h
  | succ fuel ih =>
    intro o completed hnd hexnd hexsub hcomp hpend hinv hksub
    rw [run_parallel_loop_succ]
    by_cases hlt : completed.length < o.tasks.length
    · rw [if_pos hlt]
      simp only
      set ready := o.execution_order.filter (fun n =>
          !(completed.contains n) &&
            (match lookupTask o.tasks n with
             | some t => t.dependencies.all (fun d => completed.contains d)
             | none => false)) with hready
      by_cases hre : ready.isEmpty = true
      · rw [if_pos hre]
        refine ⟨rfl, hinv, ?_, fun p hp => Or.inl hp, hksub⟩
        intro f err h
        cases h
      · rw [if_neg hre]
        have hbnd : ready.Nodup := hexnd.filter _
        have hbsub : ∀ n ∈ ready, n ∈ taskNames o.tasks := fun n hn =>
          hexsub n (mem_ready_iff.mp hn).1
        have hbnotc : ∀ n ∈ ready, n ∉ completed := fun n hn =>
          (mem_ready_iff.mp hn).2.1
        obtain ⟨b1, b2, b3, b4, b5, b6, b7, b8, b9, b10⟩ :=
          run_batch_spec ready o hnd hbnd hbsub
            (fun n hn => hpend n (hbsub n hn) (hbnotc n hn))
            hinv
            (by
              intro n hn d hd
              obtain ⟨-, -, t, hlk, hdeps⟩ := mem_ready_iff.mp hn
              rw [depsOf, hlk] at hd
              exact hcomp d (hdeps d hd))
            hksub
        rcases hb : run_batch o ready with ⟨ob, rb⟩
        rw [hb] at b1 b2 b3 b4 b5 b6 b7 b8 b9 b10
        simp only at b1 b2 b3 b4 b5 b6 b7 b8 b9 b10
        cases rb with
        | error e =>
          simp only
          refine ⟨b1, b3, ?_, b6, b10⟩
          intro f err h
          exact b4 f err h
        | ok u =>
          simp only
          obtain ⟨i1, i2, i3, i4, i5⟩ := ih ob (completed ++ ready)
            (by rw [b1]; exact hnd)
            (by rw [b8]; exact hexnd)
            (by
              rw [b8, b1]
              exact hexsub)
            (by
              intro c hc
              rcases List.mem_append.mp hc with h | h
              · rw [statusOf, b2 c (fun hcr => (hbnotc c hcr) h)]
                exact hcomp c h
              · exact b5 rfl c h)
            (by
              intro m hm hmc
              rw [List.mem_append, not_or] at hmc
              rw [b1] at hm
              have hlkm := b2 m hmc.2
              constructor
              · rw [statusOf, hlkm]
                exact (hpend m hm hmc.1).1
              · rw [b9 rfl, List.mem_append, not_or]
                exact ⟨(hpend m hm hmc.1).2, hmc.2⟩)
            (by
              intro m hm
              rw [b1] at hm
              exact b3 m hm)
            (by
              intro m hm
              rw [b1]
              exact b10 m hm)
          refine ⟨by rw [i1, b1], ?_, i3, ?_, ?_⟩
          · intro m hm
            exact i2 m (by rw [b1]; exact hm)
          · intro p hp
            rcases i4 p hp with h | h
            · exact b6 p h
            · exact Or.inr h
          · intro m hm
            rw [b1] at i5
            exact i5 m hm
    · rw [if_neg hlt]
      refine ⟨rfl, hinv, ?_, fun p hp => Or.inl hp, hksub⟩
      intro f err h
      cases h

lemma run_parallel_loop_values (fuel : Nat) :
    ∀ (o : Orquestrador) (completed : List String) (g : String → Nat),
      (taskNames o.tasks).Nodup →
      o.execution_order.Nodup →
      (∀ n, n ∈ o.execution_order ↔ n ∈ taskNames o.tasks) →
      (∀ l1 m l2, o.execution_order = l1 ++ m :: l2 →
        ∀ d ∈ depsOf o.tasks m, d ∈ l1) →
      completed.Nodup →
      (∀ c ∈ completed, c ∈ taskNames o.tasks) →
      (∀ n, n ∈ resultKeys o ↔ n ∈ completed) →
      (∀ n ∈ completed, List.lookup n o.results = some (g n)) →
      (∀ n ∈ taskNames o.tasks, n ∉ completed →
        valOf o.tasks n = some (g n)) →
      (taskNames o.tasks).length + 1 ≤ fuel + completed.length →
      (run_parallel_loop fuel o completed).2 = .ok () ∧
      (∀ n ∈ taskNames o.tasks,
        List.lookup n (run_parallel_loop fuel o completed).1.results
          = some (g n)) ∧
      (∀ n, n ∉ taskNames o.tasks →
        List.lookup n (run_parallel_loop fuel o completed).1.results
          = none) := by
  induction fuel with
  | zero =>
    intro o completed g hnd _ _ _ hcnd hcsub _ _ _ hfuel
    exfalso
    have := nodup_subset_length_le hcnd hcsub
    omega
  | succ fuel ih =>
    intro o completed g hnd hexnd hexiff hextopo hcnd hcsub hkeys hdone
      hrem hfuel
    have hfinish : (∀ n ∈ taskNames o.tasks, n ∈ completed) →
        (∀ n ∈ taskNames o.tasks, List.lookup n o.results = some (g n)) ∧
        (∀ n, n ∉ taskNames o.tasks → List.lookup n o.results = none) := by
      intro hall
      constructor
      · intro n hn
        exact hdone n (hall n hn)
      · intro n hn
        apply lookup_eq_none_of_not_mem
        intro hmem
        have : n ∈ completed := (hkeys n).mp hmem
        exact hn (hcsub n this)
    rw [run_parallel_loop_succ]
    by_cases hlt : completed.length < o.tasks.length
    · rw [if_pos hlt]
      simp only
      set ready := o.execution_order.filter (fun n =>
          !(completed.contains n) &&
            (match lookupTask o.tasks n with
             | some t => t.dependencies.all (fun d => completed.contains d)
             | none => false)) with hready
      have hprog : ∃ n ∈ o.execution_order, n ∉ completed := by
        by_contra hc
        push_neg at hc
        have hsub2 : taskNames o.tasks ⊆ completed := fun x hx =>
          hc x ((hexiff x).mpr hx)
        have := nodup_subset_length_le hnd hsub2
        rw [taskNames_length] at this
        omega
      obtain ⟨l1, n0, l2, hsp, hn0c, hl1⟩ := first_not_mem_split hprog
      have hn0mem : n0 ∈ o.execution_order := by
        rw [hsp]
        exact List.mem_append_right _ (List.mem_cons_self _ _)
      have hn0names : n0 ∈ taskNames o.tasks := (hexiff n0).mp hn0mem
      obtain ⟨t0, ht0mem, ht0name⟩ := mem_taskNames.mp hn0names
      have hlk0 : lookupTask o.tasks n0 = some t0 := by
        rw [← ht0name]
        exact lookupTask_of_mem hnd ht0mem
      have hn0ready : n0 ∈ ready := by
        rw [hready]
        apply mem_ready_iff.mpr
        refine ⟨hn0mem, hn0c, t0, hlk0, ?_⟩
        intro d hd
        apply hl1
        apply hextopo l1 n0 l2 hsp d
        rw [depsOf, hlk0]
        exact hd
      have hre : ¬(ready.isEmpty = true) := by
        rw [List.isEmpty_iff]
        intro h
        rw [h] at hn0ready
        cases hn0ready
      rw [if_neg hre]
      have hbnd : ready.Nodup := hexnd.filter _
      have hbsub : ∀ n ∈ ready, n ∈ taskNames o.tasks := fun n hn =>
        (hexiff n).mp (mem_ready_iff.mp hn).1
      have hbnotc : ∀ n ∈ ready, n ∉ completed := fun n hn =>
        (mem_ready_iff.mp hn).2.1
      obtain ⟨v1, v2, v3, v4, v5, v6⟩ := run_batch_values ready o hnd hbnd
        hbsub
        (by
          intro n hn
          exact ⟨g n, hrem n (hbsub n hn) (hbnotc n hn)⟩)
      rcases hb : run_batch o ready with ⟨ob, rb⟩
      rw [hb] at v1 v2 v3 v4 v5 v6
      simp only at v1 v2 v3 v4 v5 v6
      subst v1
      simp only
      have hkeys_ob : resultKeys ob = resultKeys o ++ ready := by
        rw [resultKeys, v2, List.map_append]
        have hid : (Prod.fst ∘ fun n : String =>
            (n, (valOf o.tasks n).getD 0)) = id := rfl
        rw [List.map_map, hid, List.map_id]
        rfl
      have hready_ne : ready ≠ [] := fun h => hre (by rw [h]; rfl)
      have hvals1 : ∀ m, m ∉ ready → valOf ob.tasks m = valOf o.tasks m := by
        intro m hm
        rw [valOf, valOf, v4 m hm]
      obtain ⟨i1, i2, i3⟩ := ih ob (completed ++ ready) g
        (by rw [v3]; exact hnd)
        (by rw [v6]; exact hexnd)
        (by
          intro n
          rw [v6, v3]
          exact hexiff n)
        (by
          intro l1x m l2x hspx d hd
          rw [v5] at hd
          exact hextopo l1x m l2x (by rw [← v6]; exact hspx) d hd)
        (by
          rw [List.nodup_append]
          exact ⟨hcnd, hbnd, fun x hx hx2 => (hbnotc x hx2) hx⟩)
        (by
          intro c hc
          rw [v3]
          rcases List.mem_append.mp hc with h | h
          · exact hcsub c h
          · exact hbsub c h)
        (by
          intro n
          rw [resultKeys, v2, List.map_append, List.mem_append,
            List.mem_append]
          constructor
          · rintro (h | h)
            · exact Or.inl ((hkeys n).mp h)
            · right
              simpa using h
          · rintro (h | h)
            · exact Or.inl ((hkeys n).mpr h)
            · right
              simpa using h)
        (by
          intro n hn
          rw [v2]
          rcases List.mem_append.mp hn with h | h
          · rw [lookup_append_left]
            · exact hdone n h
            · exact (hkeys n).mpr h
          · rw [lookup_append_right]
            · have hmap : List.lookup n (ready.map
                  (fun m => (m, (valOf o.tasks m).getD 0))) =
                  some ((valOf o.tasks n).getD 0) := lookup_map_self h
              rw [hmap]
              have := hrem n (hbsub n h) (hbnotc n h)
              rw [this]
              rfl
            · intro hmem
              exact (hbnotc n h) ((hkeys n).mp hmem))
        (by
          intro n hn hnc
          rw [List.mem_append, not_or] at hnc
          rw [hvals1 n hnc.2]
          apply hrem n _ hnc.1
          rw [← v3]
          exact hn)
        (by
          rw [v3, List.length_append]
          have : 1 ≤ ready.length := by
            cases hr2 : ready with
            | nil => exact absurd hr2 hready_ne
            | cons a tl => simp
          omega)
      refine ⟨i1, ?_, fun n hn => i3 n (by rw [v3]; exact hn)⟩
      intro m hm
      exact i2 m (by rw [v3]; exact hm)
    · rw [if_neg hlt]
      have hall : ∀ n ∈ taskNames o.tasks, n ∈ completed := by
        intro n hn
        apply nodup_subset_length_eq_mem hcnd hcsub _ n hn
        rw [taskNames_length] at hfuel ⊢
        have := nodup_subset_length_le hcnd hcsub
        omega
      exact ⟨rfl, (hfinish hall).1, (hfinish hall).2⟩

end ParallelLoop

section ClaimC4

lemma plan_execution_fst_of_error {o : Orquestrador} {e : OrchError}
    (h : (plan_execution o).2 = .error e) : (plan_execution o).1 = o := by
  rw [plan_execution] at h ⊢
  by_cases hval : validate o = []
  · rw [if_pos hval] at h ⊢
    cases hts : topological_sort o.tasks with
    | ok ord2 =>
      rw [hts] at h
      simp at h
    | error e2 =>
      rfl
  · rw [if_neg hval]

lemma statusOf_not_completed_of_all_pending {o : Orquestrador}
    (hpend : ∀ t ∈ o.tasks, t.status = .pending) (n : String) :
    ¬ statusOf o n = some .completed := by
  rw [statusOf]
  intro h
  rw [Option.map_eq_some'] at h
  obtain ⟨t, hlk, hst⟩ := h
  have := hpend t (List.mem_of_find?_eq_some hlk)
  rw [this] at hst
  cases hst

lemma statusOf_pending_of_all_pending {o : Orquestrador}
    (hpend : ∀ t ∈ o.tasks, t.status = .pending) {n : String}
    (hn : n ∈ taskNames o.tasks) : statusOf o n = some .pending := by
  obtain ⟨t, htm, htn⟩ := mem_taskNames.mp hn
  rw [statusOf]
  cases hlk : lookupTask o.tasks n with
  | none =>
    exfalso
    have : (lookupTask o.tasks n).isSome = true := lookupTask_isSome_iff.mpr hn
    rw [hlk] at this
    cases this
  | some t2 =>
    have := hpend t2 (List.mem_of_find?_eq_some hlk)
    simp [this]

/-- C4: with every task initially pending, the results mapping after
`run()` (in either mode) holds exactly the registered tasks whose final
status is `Completed`, and a terminal `TaskFailed f` error leaves `f` with
status `Failed` and absent from the results. -/
theorem C4_results_exactly_completed (o : Orquestrador) (b : Bool)
    (hnd : (taskNames o.tasks).Nodup)
    (hpend : ∀ t ∈ o.tasks, t.status = .pending)
    (hidle : o.is_running = false) :
    (∀ n, n ∈ resultKeys (run o b).1 ↔
      (n ∈ taskNames o.tasks ∧
        statusOf (run o b).1 n = some .completed)) ∧
    (∀ f err, (run o b).2 = .error (.taskFailed f err) →
      statusOf (run o b).1 f = some .failed ∧
      f ∉ resultKeys (run o b).1) := by
  cases hplan : (plan_execution (runStart o)).2 with
  | error e =>
    rw [run_eq_of_plan_error hidle hplan b,
      plan_execution_fst_of_error hplan]
    constructor
    · intro n
      constructor
      · intro h
        cases h
      · rintro ⟨hn, hst⟩
        exact absurd hst (statusOf_not_completed_of_all_pending hpend n)
    · intro f err h
      simp only [Except.error.injEq] at h
      rcases plan_execution_error_shape hplan with h2 | h2 | h2 <;>
        rw [h2] at h <;> cases h
  | ok order =>
    have hts : topological_sort o.tasks = .ok order :=
      @plan_execution_snd_ok_topo (runStart o) order hplan
    have htopo := topological_sort_ok_props hnd hts
    obtain ⟨hordnd, hordiff, hordtopo⟩ := htopo
    rw [run_eq_of_plan_ok hidle hplan b]
    simp only
    set o2 : Orquestrador := { runStart o with execution_order := order }
      with ho2
    have hpend2 : ∀ n ∈ taskNames o2.tasks,
        statusOf o2 n = some .pending ∧ n ∉ resultKeys o2 := by
      intro n hn
      refine ⟨statusOf_pending_of_all_pending hpend hn, ?_⟩
      intro h
      cases h
    have hinv2 : ∀ n ∈ taskNames o2.tasks,
        (n ∈ resultKeys o2 ↔ statusOf o2 n = some .completed) := by
      intro n hn
      constructor
      · intro h
        cases h
      · intro h
        exact absurd h (statusOf_not_completed_of_all_pending hpend n)
    cases b with
    | false =>
      rw [if_neg Bool.false_ne_true]
      obtain ⟨s1, s2, s3, s4⟩ := run_sequential_inv order o2 hnd hordnd
        (fun n hn => (hordiff n).mp hn) (fun n hn => hpend2 n ((hordiff n).mp hn))
        hinv2 (fun n hn => by cases hn)
      rcases hr : run_sequential o2 order with ⟨or2, out⟩
      rw [hr] at s1 s2 s3 s4
      simp only at s1 s2 s3 s4
      cases out with
      | ok u =>
        simp only
        constructor
        · intro n
          constructor
          · intro h
            exact ⟨s4 n h, (s2 n (s4 n h)).mp h⟩
          · rintro ⟨hn, hst⟩
            exact (s2 n hn).mpr hst
        · intro f err h
          cases h
      | error e =>
        simp only
        constructor
        · intro n
          constructor
          · intro h
            exact ⟨s4 n h, (s2 n (s4 n h)).mp h⟩
          · rintro ⟨hn, hst⟩
            exact (s2 n hn).mpr hst
        · intro f err h
          simp only [Except.error.injEq] at h
          subst h
          exact s3 f err rfl
    | true =>
      rw [if_pos rfl]
      rw [run_parallel]
      obtain ⟨s1, s2, s3, s4, s5⟩ := run_parallel_loop_inv
        (o2.tasks.length + 1) o2 [] hnd hordnd
        (fun n hn => (hordiff n).mp hn)
        (fun c hc => by cases hc)
        (fun n hn _ => hpend2 n hn)
        hinv2 (fun n hn => by cases hn)
      rcases hr : run_parallel_loop (o2.tasks.length + 1) o2 []
        with ⟨or2, out⟩
      rw [hr] at s1 s2 s3 s4 s5
      simp only at s1 s2 s3 s4 s5
      cases out with
      | ok u =>
        simp only
        constructor
        · intro n
          constructor
          · intro h
            exact ⟨s5 n h, (s2 n (s5 n h)).mp h⟩
          · rintro ⟨hn, hst⟩
            exact (s2 n hn).mpr hst
        · intro f err h
          cases h
      | error e =>
        simp only
        constructor
        · intro n
          constructor
          · intro h
            exact ⟨s5 n h, (s2 n (s5 n h)).mp h⟩
          · rintro ⟨hn, hst⟩
            exact (s2 n hn).mpr hst
        · intro f err h
          simp only [Except.error.injEq] at h
          subst h
          exact s3 f err rfl

/-- Witness for C4: the chain A, X(A, retryLimit 1, always failing),
Z(X) run sequentially fails with TaskFailed X; A is in the results with
status Completed, X is Failed and absent. -/
theorem C4_witness :
    ((taskNames oFailMid.tasks).Nodup ∧
     (∀ t ∈ oFailMid.tasks, t.status = .pending) ∧
     oFailMid.is_running = false) ∧
    ((∀ n, n ∈ resultKeys (run oFailMid false).1 ↔
       (n ∈ taskNames oFailMid.tasks ∧
         statusOf (run oFailMid false).1 n = some .completed)) ∧
     (∀ f err, (run oFailMid false).2 = .error (.taskFailed f err) →
       statusOf (run oFailMid false).1 f = some .failed ∧
       f ∉ resultKeys (run oFailMid false).1)) :=
  ⟨⟨by decide, by decide, rfl⟩,
    C4_results_exactly_completed oFailMid false (by decide) (by decide) rfl⟩

end ClaimC4

section ClaimC5

/-- C5: in both modes, every ghost start-log entry of a run is `true`:
whenever a task execution starts, every one of its dependencies already has
status `Completed`. -/
theorem C5_never_starts_before_deps (o : Orquestrador) (b : Bool)
    (hnd : (taskNames o.tasks).Nodup)
    (hpend : ∀ t ∈ o.tasks, t.status = .pending)
    (hidle : o.is_running = false)
    (hlog : o.startLog = []) :
    ∀ p ∈ (run o b).1.startLog, p.2 = true := by
  cases hplan : (plan_execution (runStart o)).2 with
  | error e =>
    rw [run_eq_of_plan_error hidle hplan b,
      plan_execution_fst_of_error hplan]
    intro p hp
    have hp2 : p ∈ o.startLog := hp
    rw [hlog] at hp2
    cases hp2
  | ok order =>
    have hts : topological_sort o.tasks = .ok order :=
      @plan_execution_snd_ok_topo (runStart o) order hplan
    obtain ⟨hordnd, hordiff, hordtopo⟩ := topological_sort_ok_props hnd hts
    rw [run_eq_of_plan_ok hidle hplan b]
    simp only
    set o2 : Orquestrador := { runStart o with execution_order := order }
      with ho2
    have hlog2 : o2.startLog = [] := hlog
    cases b with
    | false =>
      rw [if_neg Bool.false_ne_true]
      have hseq := run_sequential_log order o2 [] hnd hordnd
        (fun n hn => (hordiff n).mp hn)
        (fun n _ hn => by cases hn)
        (fun m hm => by cases hm)
        (by
          intro l1 m l2 hsp d hd
          rw [List.nil_append]
          exact hordtopo l1 m l2 hsp d hd)
      rcases hr : run_sequential o2 order with ⟨or2, out⟩
      rw [hr] at hseq
      simp only at hseq
      cases out with
      | ok u =>
        simp only
        intro p hp
        rcases hseq p hp with h | h
        · rw [hlog2] at h
          cases h
        · exact h
      | error e =>
        simp only
        intro p hp
        rcases hseq p hp with h | h
        · rw [hlog2] at h
          cases h
        · exact h
    | true =>
      rw [if_pos rfl, run_parallel]
      have hpend2 : ∀ n ∈ taskNames o2.tasks,
          statusOf o2 n = some .pending ∧ n ∉ resultKeys o2 := by
        intro n hn
        refine ⟨statusOf_pending_of_all_pending hpend hn, ?_⟩
        intro h
        cases h
      obtain ⟨-, -, -, s4, -⟩ := run_parallel_loop_inv
        (o2.tasks.length + 1) o2 [] hnd hordnd
        (fun n hn => (hordiff n).mp hn)
        (fun c hc => by cases hc)
        (fun n hn _ => hpend2 n hn)
        (by
          intro n hn
          constructor
          · intro h
            cases h
          · intro h
            exact absurd h (statusOf_not_completed_of_all_pending hpend n))
        (fun n hn => by cases hn)
      rcases hr : run_parallel_loop (o2.tasks.length + 1) o2 []
        with ⟨or2, out⟩
      rw [hr] at s4
      simp only at s4
      cases out with
      | ok u =>
        simp only
        intro p hp
        rcases s4 p hp with h | h
        · rw [hlog2] at h
          cases h
        · exact h
      | error e =>
        simp only
        intro p hp
        rcases s4 p hp with h | h
        · rw [hlog2] at h
          cases h
        · exact h

/-- Witness for C5: the diamond run in both modes (D starts only after B
and C completed; every start-log entry is true). -/
theorem C5_witness :
    ((taskNames oDiamond.tasks).Nodup ∧
     (∀ t ∈ oDiamond.tasks, t.status = .pending) ∧
     oDiamond.is_running = false ∧ oDiamond.startLog = []) ∧
    (∀ p ∈ (run oDiamond false).1.startLog, p.2 = true) ∧
    (∀ p ∈ (run oDiamond true).1.startLog, p.2 = true) :=
  ⟨⟨by decide, by decide, rfl, rfl⟩,
    C5_never_starts_before_deps oDiamond false (by decide) (by decide) rfl rfl,
    C5_never_starts_before_deps oDiamond true (by decide) (by decide) rfl rfl⟩

end ClaimC5

section ClaimC6

lemma execute_task_exec_order (o : Orquestrador) (n : String) :
    (execute_task o n).1.execution_order = o.execution_order := by
  cases hlk : lookupTask o.tasks n with
  | none =>
    have h : execute_task o n = (o, .error .keyError) := by
      simp only [execute_task, hlk]
    rw [h]
  | some t =>
    cases hout : (executeAttempts (t.retry_count + 1) t o.clock).2.2 with
    | ok v => rw [execute_task_eq_ok hlk hout]
    | error e => rw [execute_task_eq_err hlk hout]

lemma run_sequential_exec_order (order : List String) :
    ∀ o : Orquestrador,
      (run_sequential o order).1.execution_order = o.execution_order := by
  induction order with
  | nil => intro o; rfl
  | cons n rest ih =>
    intro o
    rw [run_sequential]
    rcases he : execute_task o n with ⟨o1, out⟩
    have h1 : o1.execution_order = o.execution_order := by
      rw [show o1 = (execute_task o n).1 from by rw [he]]
      exact execute_task_exec_order o n
    cases out with
    | ok v =>
      simp only
      rw [ih o1]
      exact h1
    | error e =>
      simp only
      exact h1

/-- C6: in sequential mode from an all-pending start, a terminal task
failure aborts the run at that task: the planned order splits as
`done ++ f :: rest`, the results hold exactly `done`, `f` ends `Failed`,
and every task after `f` is untouched and still `Pending`. -/
theorem C6_sequential_fail_fast (o : Orquestrador)
    (hnd : (taskNames o.tasks).Nodup)
    (hpend : ∀ t ∈ o.tasks, t.status = .pending)
    (hidle : o.is_running = false)
    (f : String) (err : Nat)
    (hfail : (run o false).2 = .error (.taskFailed f err)) :
    ∃ done rest,
      (run o false).1.execution_order = done ++ f :: rest ∧
      resultKeys (run o false).1 = done ∧
      statusOf (run o false).1 f = some .failed ∧
      (∀ m ∈ rest,
        lookupTask (run o false).1.tasks m = lookupTask o.tasks m ∧
        statusOf (run o false).1 m = some .pending) := by
  cases hplan : (plan_execution (runStart o)).2 with
  | error e =>
    rw [run_eq_of_plan_error hidle hplan false] at hfail
    simp only [Except.error.injEq] at hfail
    rcases plan_execution_error_shape hplan with h2 | h2 | h2 <;>
      rw [h2] at hfail <;> cases hfail
  | ok order =>
    have hts : topological_sort o.tasks = .ok order :=
      @plan_execution_snd_ok_topo (runStart o) order hplan
    obtain ⟨hordnd, hordiff, hordtopo⟩ := topological_sort_ok_props hnd hts
    rw [run_eq_of_plan_ok hidle hplan false] at hfail ⊢
    simp only at hfail ⊢
    rw [if_neg Bool.false_ne_true] at hfail ⊢
    set o2 : Orquestrador := { runStart o with execution_order := order }
      with ho2
    rcases hr : run_sequential o2 order with ⟨or2, out⟩
    have hexec : or2.execution_order = order := by
      rw [show or2 = (run_sequential o2 order).1 from by rw [hr]]
      rw [run_sequential_exec_order order o2]
    rw [hr] at hfail
    cases out with
    | ok u =>
      simp only at hfail
      cases hfail
    | error e =>
      simp only at hfail ⊢
      simp only [Except.error.injEq] at hfail
      subst hfail
      obtain ⟨f2, err2, done, rest2, hshape, hsplit, hkeys, hstatf, huntouched⟩ :=
        run_sequential_error_split order o2 hnd hordnd
          (fun n hn => (hordiff n).mp hn) _ (by rw [hr])
      simp only [OrchError.taskFailed.injEq] at hshape
      obtain ⟨rfl, rfl⟩ := hshape
      rw [hr] at hkeys hstatf huntouched
      simp only at hkeys hstatf huntouched
      refine ⟨done, rest2, ?_, ?_, hstatf, ?_⟩
      · show or2.execution_order = done ++ f :: rest2
        rw [hexec]
        exact hsplit
      · show resultKeys or2 = done
        have h2 : resultKeys or2 = resultKeys o2 ++ done := hkeys
        rw [h2]
        rfl
      · intro m hm
        have hmord : m ∈ order := by
          rw [hsplit]
          exact List.mem_append_right _ (List.mem_cons_of_mem _ hm)
        have hlkeq : lookupTask or2.tasks m = lookupTask o.tasks m :=
          (huntouched m hm).trans rfl
        refine ⟨hlkeq, ?_⟩
        show (lookupTask or2.tasks m).map Task.status = some TaskStatus.pending
        rw [hlkeq]
        exact statusOf_pending_of_all_pending hpend ((hordiff m).mp hmord)

set_option maxHeartbeats 4000000 in
/-- Witness for C6: the failing leaf X (retryLimit 1) with dependent Z:
the sequential run fails at X and Z stays pending and untouched. -/
theorem C6_witness :
    ((taskNames oFailPair.tasks).Nodup ∧
     (∀ t ∈ oFailPair.tasks, t.status = .pending) ∧
     oFailPair.is_running = false ∧
     (run oFailPair false).2 = .error (.taskFailed "X" 9)) ∧
    (∃ done rest,
      (run oFailPair false).1.execution_order = done ++ "X" :: rest ∧
      resultKeys (run oFailPair false).1 = done ∧
      statusOf (run oFailPair false).1 "X" = some .failed ∧
      (∀ m ∈ rest,
        lookupTask (run oFailPair false).1.tasks m
          = lookupTask oFailPair.tasks m ∧
        statusOf (run oFailPair false).1 m = some .pending)) :=
  ⟨⟨by decide, by decide, rfl, rfl⟩,
    C6_sequential_fail_fast oFailPair (by decide) (by decide) rfl "X" 9 rfl⟩

end ClaimC6

section ClaimC7

/-- C7: on a failure-free task set (every work invocation succeeds), the
sequential run and the bounded-parallel run both succeed and produce equal
results mappings: `List.lookup` agrees on every name. -/
theorem C7_mode_equivalence (o : Orquestrador)
    (hnd : (taskNames o.tasks).Nodup)
    (hreg : ∀ t ∈ o.tasks, ∀ d ∈ t.dependencies, d ∈ taskNames o.tasks)
    (hacyc : Acyclic o.tasks)
    (hidle : o.is_running = false)
    (hok : ∀ t ∈ o.tasks, ∀ k, ∃ v, t.work k = .ok v) :
    ∃ rs rp, (run o false).2 = .ok rs ∧ (run o true).2 = .ok rp ∧
      (∀ n, List.lookup n rs = List.lookup n rp) := by
  obtain ⟨order, hplan, -⟩ :=
    @plan_execution_acyclic (runStart o) hnd hreg hacyc
  have hts : topological_sort o.tasks = .ok order :=
    @plan_execution_snd_ok_topo (runStart o) order hplan
  obtain ⟨hordnd, hordiff, hordtopo⟩ := topological_sort_ok_props hnd hts
  rw [run_eq_of_plan_ok hidle hplan false, run_eq_of_plan_ok hidle hplan true]
  simp only
  rw [run_parallel]
  set o2 : Orquestrador := { runStart o with execution_order := order }
    with ho2
  have hval : ∀ n ∈ taskNames o2.tasks, ∃ v, valOf o2.tasks n = some v := by
    intro n hn
    obtain ⟨t, htm, htn⟩ := mem_taskNames.mp hn
    have hlk : lookupTask o2.tasks n = some t := by
      rw [← htn]
      exact lookupTask_of_mem hnd htm
    obtain ⟨v, hv⟩ := hok t htm t.calls
    refine ⟨v, ?_⟩
    simp only [valOf, hlk, hv]
    rfl
  obtain ⟨hsok, hsres⟩ := run_sequential_values order o2 hnd hordnd
    (fun n hn => (hordiff n).mp hn)
    (fun n hn => hval n ((hordiff n).mp hn))
  obtain ⟨hpok, hpmem, hpnot⟩ := run_parallel_loop_values
    (o2.tasks.length + 1) o2 []
    (fun m => (valOf o2.tasks m).getD 0)
    hnd hordnd hordiff
    (fun l1 m l2 h d hd => hordtopo l1 m l2 h d hd)
    List.nodup_nil
    (fun c hc => by cases hc)
    (fun n => Iff.intro (fun h => by cases h) (fun h => by cases h))
    (fun n hn => by cases hn)
    (by
      intro n hn _
      obtain ⟨v, hv⟩ := hval n hn
      show valOf o2.tasks n = some ((valOf o2.tasks n).getD 0)
      simp only [hv, Option.getD_some])
    (by
      rw [taskNames_length]
      simp)
  rcases hrs : run_sequential o2 order with ⟨os, outs⟩
  rw [hrs] at hsok hsres
  simp only at hsok hsres
  subst hsok
  rcases hrp : run_parallel_loop (o2.tasks.length + 1) o2 [] with ⟨op, outp⟩
  rw [hrp] at hpok hpmem hpnot
  simp only at hpok hpmem hpnot
  subst hpok
  refine ⟨os.results, op.results, rfl, rfl, ?_⟩
  intro n
  rw [hsres]
  have hres0 : n ∉ ((runStart o).results).map Prod.fst := fun hmem => by
    cases hmem
  by_cases hn : n ∈ taskNames (runStart o).tasks
  · rw [lookup_append_right hres0, lookup_map_self ((hordiff n).mpr hn)]
    exact (hpmem n hn).symm
  · have hordn : n ∉ order := fun h => hn ((hordiff n).mp h)
    have hnotin : n ∉ (order.map
        (fun m => (m, (valOf (runStart o).tasks m).getD 0))).map Prod.fst := by
      intro h
      rw [List.map_map] at h
      rcases List.mem_map.mp h with ⟨m, hm, hmn⟩
      have hm2 : m = n := hmn
      exact hordn (hm2 ▸ hm)
    rw [lookup_append_right hres0, lookup_eq_none_of_not_mem hnotin,
      hpnot n hn]

lemma diamond_work_ok : ∀ t ∈ oDiamond.tasks, ∀ k, ∃ v, t.work k = .ok v := by
  intro t ht k
  simp only [oDiamond, List.mem_cons, List.not_mem_nil, or_false] at ht
  rcases ht with rfl | rfl | rfl | rfl <;> exact ⟨_, rfl⟩

/-- Witness for C7: the diamond A, B(A), C(A), D(B, C) with all-succeeding
work: both modes succeed with equal results mappings. -/
theorem C7_witness :
    ((taskNames oDiamond.tasks).Nodup ∧
     (∀ t ∈ oDiamond.tasks, ∀ d ∈ t.dependencies,
        d ∈ taskNames oDiamond.tasks) ∧
     Acyclic oDiamond.tasks ∧
     oDiamond.is_running = false ∧
     (∀ t ∈ oDiamond.tasks, ∀ k, ∃ v, t.work k = .ok v)) ∧
    (∃ rs rp, (run oDiamond false).2 = .ok rs ∧
      (run oDiamond true).2 = .ok rp ∧
      (∀ n, List.lookup n rs = List.lookup n rp)) :=
  ⟨⟨by decide, by decide, diamond_acyclic, rfl, diamond_work_ok⟩,
    C7_mode_equivalence oDiamond (by decide) (by decide) diamond_acyclic rfl
      diamond_work_ok⟩

end ClaimC7

end Orq
